/-
Verification of the RGFN trajectory/dispatch/loss core against its
natural-language specification.  Python source files are shallowly embedded:
tensors become lists over ℚ (exact arithmetic in place of floats), batched
proxy/policy callbacks become explicit function parameters, and fallible code
returns `Option`/`Except`.
-/
import Mathlib

namespace RGFN

/-! ### `rgfn/utils/helpers.py`: `to_indices`

`to_indices(counts)` is `torch.repeat_interleave(torch.arange(len(counts)), counts)`:
index `i` repeated `counts[i]` times, concatenated in order. -/

/-- Embedding of `torch.repeat_interleave(values, counts)` for 1-d tensors:
each `values[i]` is repeated `counts[i]` times, in order. -/
def repeatInterleave {α : Type} (values : List α) (counts : List ℕ) : List α :=
  ((values.zip counts).map fun p => List.replicate p.2 p.1).flatten

/-- Embedding of `to_indices` (`helpers.py` lines 49-51). -/
def to_indices (counts : List ℕ) : List ℕ :=
  repeatInterleave (List.range counts.length) counts

/-- Regroup a flat stream by an index list: the `i`-th group collects, in
order, the entries of `flat` whose index entry equals `i`. -/
def regroupByIndex {α : Type} (index : List ℕ) (flat : List α) (n : ℕ) : List (List α) :=
  (List.range n).map fun i => ((index.zip flat).filter fun p => p.1 = i).map Prod.snd

lemma repeatInterleave_nil_left {α : Type} (counts : List ℕ) :
    repeatInterleave ([] : List α) counts = [] := by
  simp [repeatInterleave]

lemma repeatInterleave_cons {α : Type} (v : α) (vs : List α) (c : ℕ) (cs : List ℕ) :
    repeatInterleave (v :: vs) (c :: cs) = List.replicate c v ++ repeatInterleave vs cs := by
  simp [repeatInterleave]

lemma repeatInterleave_map {α β : Type} (f : α → β) (values : List α) (counts : List ℕ) :
    repeatInterleave (values.map f) counts = (repeatInterleave values counts).map f := by
  induction values generalizing counts with
  | nil => simp [repeatInterleave]
  | cons v vs ih =>
    cases counts with
    | nil => simp [repeatInterleave]
    | cons c cs =>
      simp only [List.map_cons, repeatInterleave_cons, List.map_append, List.map_replicate]
      rw [ih]

lemma repeatInterleave_length {α : Type} (values : List α) (counts : List ℕ)
    (h : values.length = counts.length) :
    (repeatInterleave values counts).length = counts.sum := by
  induction values generalizing counts with
  | nil =>
    cases counts with
    | nil => simp [repeatInterleave]
    | cons c cs => simp at h
  | cons v vs ih =>
    cases counts with
    | nil => simp at h
    | cons c cs =>
      simp only [List.length_cons, Nat.succ.injEq] at h
      simp [repeatInterleave_cons, ih cs h, List.sum_cons]

lemma to_indices_cons (c : ℕ) (cs : List ℕ) :
    to_indices (c :: cs) =
      List.replicate c 0 ++ (to_indices cs).map Nat.succ := by
  unfold to_indices
  rw [List.length_cons, List.range_succ_eq_map, repeatInterleave_cons,
    repeatInterleave_map]

lemma to_indices_length (counts : List ℕ) : (to_indices counts).length = counts.sum :=
  repeatInterleave_length _ _ (by simp)

lemma getD_replicate {α : Type} (c j : ℕ) (a : α) :
    (List.replicate c a).getD j a = a := by
  induction c generalizing j with
  | zero => simp
  | succ n ih =>
    cases j with
    | zero => simp [List.replicate]
    | succ j => simp [List.replicate]

lemma to_indices_getD (counts : List ℕ) :
    ∀ j, j < counts.sum → ∀ i,
      ((to_indices counts).getD j 0 = i ↔
        (counts.take i).sum ≤ j ∧ j < (counts.take (i + 1)).sum) := by
  induction counts with
  | nil => intro j hj; simp at hj
  | cons c cs ih =>
    intro j hj i
    rw [to_indices_cons]
    by_cases hjc : j < c
    · rw [List.getD_append _ _ _ _ (by simpa using hjc), getD_replicate]
      cases i with
      | zero =>
        have h1 : ((c :: cs).take 1).sum = c := by
          rw [show (1 : ℕ) = 0 + 1 from rfl, List.take_succ_cons, List.take_zero]
          simp
        rw [h1]
        simp only [List.take_zero, List.sum_nil]
        exact iff_of_true trivial ⟨Nat.zero_le _, hjc⟩
      | succ i =>
        simp only [List.take_succ_cons, List.sum_cons]
        omega
    · push_neg at hjc
      rw [List.getD_append_right _ _ _ _ (by simpa using hjc)]
      have hlen : j - (List.replicate c (0 : ℕ)).length = j - c := by simp
      rw [hlen]
      have hjs : j - c < cs.sum := by
        simp only [List.sum_cons] at hj; omega
      have hmem : j - c < ((to_indices cs).map Nat.succ).length := by
        simpa [to_indices_length] using hjs
      rw [List.getD_eq_getElem _ _ hmem, List.getElem_map]
      cases i with
      | zero =>
        simp only [List.take_zero, List.sum_nil, List.take_succ_cons, List.take_zero,
          List.sum_cons, List.sum_nil]
        constructor
        · intro h; exact absurd h (Nat.succ_ne_zero _)
        · intro h; omega
      | succ i =>
        have := ih (j - c) hjs i
        rw [List.getD_eq_getElem _ _ (by simpa [to_indices_length] using hjs)] at this
        simp only [Nat.succ.injEq, this, List.take_succ_cons, List.sum_cons]
        omega

lemma zip_replicate_left {α β : Type} (n : ℕ) (a : α) (l : List β) (h : l.length = n) :
    (List.replicate n a).zip l = l.map (fun b => (a, b)) := by
  induction l generalizing n with
  | nil => simp
  | cons x xs ih =>
    cases n with
    | zero => simp at h
    | succ m => simp_all [List.replicate]

lemma regroup_to_indices {α : Type} (groups : List (List α)) :
    regroupByIndex (to_indices (groups.map List.length)) groups.flatten groups.length
      = groups := by
  induction groups with
  | nil => simp [regroupByIndex]
  | cons g gs ih =>
    unfold regroupByIndex at ih ⊢
    rw [List.map_cons, to_indices_cons, List.flatten_cons, List.length_cons,
      List.range_succ_eq_map, List.map_cons, List.map_map]
    have hzip :
        (List.replicate g.length 0 ++ (to_indices (gs.map List.length)).map Nat.succ).zip
            (g ++ gs.flatten)
          = (List.replicate g.length (0 : ℕ)).zip g ++
            (((to_indices (gs.map List.length)).zip gs.flatten).map
              (Prod.map Nat.succ id)) := by
      rw [List.zip_append (by simp), List.zip_map_left]
    rw [hzip]
    congr 1
    · rw [List.filter_append, List.map_append]
      have h1 : ((List.replicate g.length (0 : ℕ)).zip g).filter
          (fun p => decide (p.1 = 0)) = (List.replicate g.length (0 : ℕ)).zip g := by
        apply List.filter_eq_self.mpr
        intro p hp
        have h0 := List.of_mem_zip hp
        have : p.1 = 0 := List.eq_of_mem_replicate h0.1
        simp [this]
      have h2 : ((((to_indices (gs.map List.length)).zip gs.flatten).map
          (Prod.map Nat.succ id)).filter (fun p => decide (p.1 = 0))) = [] := by
        apply List.filter_eq_nil_iff.mpr
        intro p hp
        obtain ⟨q, _, rfl⟩ := List.mem_map.mp hp
        simp [Prod.map]
      rw [h1, h2, List.map_nil, List.append_nil, zip_replicate_left _ _ _ rfl,
        List.map_map]
      simp
    · refine Eq.trans (List.map_congr_left ?_) ih
      intro i _
      simp only [Function.comp_apply]
      rw [List.filter_append, List.map_append]
      have h1 : ((List.replicate g.length (0 : ℕ)).zip g).filter
          (fun p => decide (p.1 = i + 1)) = [] := by
        apply List.filter_eq_nil_iff.mpr
        intro p hp
        have h0 := List.of_mem_zip hp
        have : p.1 = 0 := List.eq_of_mem_replicate h0.1
        simp [this]
      have h2 : ((((to_indices (gs.map List.length)).zip gs.flatten).map
          (Prod.map Nat.succ id)).filter (fun p => decide (p.1 = i + 1)))
          = (((to_indices (gs.map List.length)).zip gs.flatten).filter
              (fun p => decide (p.1 = i))).map (Prod.map Nat.succ id) := by
        rw [List.filter_map]
        congr 1
        apply List.filter_congr
        intro p _
        simp [Prod.map]
      rw [h1, h2, List.map_nil, List.nil_append, List.map_map]
      exact List.map_congr_left fun p _ => rfl

/-- C5: for every tensor of non-negative counts, `to_indices` returns the index
tensor of length `sum counts` whose `j`-th entry is the unique `i` with
`sum(counts[:i]) ≤ j < sum(counts[:i+1])` (value `i` repeated `counts[i]` times,
in order), so that regrouping a flat per-action stream by this tensor reproduces
the original per-trajectory partition exactly, preserving order within each
trajectory. -/
theorem to_indices_bracket_and_roundtrip :
    (∀ counts : List ℕ, (to_indices counts).length = counts.sum)
    ∧ (∀ counts : List ℕ, ∀ j, j < counts.sum → ∀ i,
        ((to_indices counts).getD j 0 = i ↔
          (counts.take i).sum ≤ j ∧ j < (counts.take (i + 1)).sum))
    ∧ ∀ (α : Type) (groups : List (List α)),
        regroupByIndex (to_indices (groups.map List.length)) groups.flatten
          groups.length = groups :=
  ⟨to_indices_length, to_indices_getD, fun _ => regroup_to_indices⟩

/-- Witness for C5 at a concrete input: `to_indices [2,0,3] = [0,0,2,2,2]` has
entry `2` at position `3`, the unique bracket `2 ≤ 3 < 5`. -/
theorem to_indices_bracket_and_roundtrip_witness :
    (to_indices [2, 0, 3]).getD 3 0 = 2 :=
  (to_indices_bracket_and_roundtrip.2.1 [2, 0, 3] 3 (by decide) 2).mpr (by decide)

/-! ### `rgfn/shared/objectives/conditioned_trajectory_balance_objective.py`

Tensors are embedded as `List ℚ` (exact arithmetic in place of floats).  The
flat tensors that `compute_objective_output` reads off the trajectory container
and the policy (`source_log_flow`, `forward_log_prob`, `backward_log_prob`,
`log_reward`, `index`) are passed as explicit arguments. -/

/-- Embedding of `torch.scatter_add(input, index, src, dim=0)` on 1-d tensors,
processing the `(index, src)` pairs sequentially: `out[index[j]] += src[j]`. -/
def scatterAddPairs (input : List ℚ) : List (ℕ × ℚ) → List ℚ
  | [] => input
  | p :: ps => scatterAddPairs (input.set p.1 (input.getD p.1 0 + p.2)) ps

/-- 1-d `torch.scatter_add`. -/
def scatter_add (input : List ℚ) (index : List ℕ) (src : List ℚ) : List ℚ :=
  scatterAddPairs input (index.zip src)

/-- Embedding of `ConditionedTrajectoryBalanceObjective.compute_objective_output`
(lines 16-29): `loss = scatter_add(source_log_flow - log_reward, index,
forward_log_prob - backward_log_prob).pow(2).mean()`. -/
def compute_objective_output (source_log_flow log_reward : List ℚ)
    (forward_log_prob backward_log_prob : List ℚ) (index : List ℕ) : ℚ :=
  let delta := scatter_add (List.zipWith (· - ·) source_log_flow log_reward)
    index (List.zipWith (· - ·) forward_log_prob backward_log_prob)
  (delta.map fun d => d ^ 2).sum / delta.length

lemma scatterAddPairs_length (ps : List (ℕ × ℚ)) (input : List ℚ) :
    (scatterAddPairs input ps).length = input.length := by
  induction ps generalizing input with
  | nil => rfl
  | cons p t ih => rw [scatterAddPairs, ih, List.length_set]

lemma scatterAddPairs_getD (ps : List (ℕ × ℚ)) (input : List ℚ) (i : ℕ)
    (hi : i < input.length) :
    (scatterAddPairs input ps).getD i 0 =
      input.getD i 0 + ((ps.filter fun p => p.1 = i).map Prod.snd).sum := by
  induction ps generalizing input with
  | nil => simp [scatterAddPairs]
  | cons p t ih =>
    rw [scatterAddPairs, ih _ (by simpa using hi)]
    by_cases hp : p.1 = i
    · subst hp
      have hset : (input.set p.1 (input.getD p.1 0 + p.2)).getD p.1 0 =
          input.getD p.1 0 + p.2 := by
        rw [List.getD_eq_getElem _ _ (by simpa using hi)]
        simp [List.getElem_set]
      rw [hset]
      simp only [List.filter_cons, decide_True, if_true, List.map_cons, List.sum_cons]
      ring
    · have hset : (input.set p.1 (input.getD p.1 0 + p.2)).getD i 0 =
          input.getD i 0 := by
        rcases Nat.lt_or_ge i input.length with hlt | hge
        · rw [List.getD_eq_getElem _ _ (by simpa using hlt),
            List.getD_eq_getElem _ _ hlt]
          simp [List.getElem_set, hp]
        · exact absurd hi (Nat.not_lt.mpr hge)
      rw [hset]
      simp [List.filter_cons, hp]

lemma list_map_sq_sum (l : List ℚ) :
    (l.map fun d => d ^ 2).sum = ∑ i in Finset.range l.length, (l.getD i 0) ^ 2 := by
  induction l with
  | nil => simp
  | cons x t ih =>
    rw [List.map_cons, List.sum_cons, List.length_cons, Finset.sum_range_succ', ih]
    simp [add_comm]

lemma zip_filter_sum (idx : List ℕ) (src : List ℚ) (h : src.length = idx.length)
    (i : ℕ) :
    (((idx.zip src).filter fun p => p.1 = i).map Prod.snd).sum
      = ∑ j in (Finset.range idx.length).filter (fun j => idx.getD j 0 = i),
          src.getD j 0 := by
  induction idx generalizing src with
  | nil => simp
  | cons a t ih =>
    cases src with
    | nil => simp at h
    | cons s ss =>
      simp only [List.length_cons, Nat.succ.injEq] at h
      rw [Finset.sum_filter, List.length_cons, Finset.sum_range_succ']
      simp only [List.getD_cons_succ, List.getD_cons_zero]
      rw [← Finset.sum_filter, ← ih ss h, List.zip_cons_cons, List.filter_cons]
      by_cases ha : a = i
      · simp [ha, add_comm]
      · simp [ha]

lemma getD_zipWith_sub (xs ys : List ℚ) (i : ℕ) (hx : i < xs.length)
    (hy : i < ys.length) :
    (List.zipWith (· - ·) xs ys).getD i 0 = xs.getD i 0 - ys.getD i 0 := by
  have hi : i < (List.zipWith (· - ·) xs ys).length := by
    rw [List.length_zipWith]; omega
  rw [List.getD_eq_getElem _ _ hi, List.getElem_zipWith,
    List.getD_eq_getElem _ _ hx, List.getD_eq_getElem _ _ hy]

/-- C1: `compute_objective_output` returns the mean over trajectories of
`delta^2`, where each trajectory's `delta` starts from
`source_log_flow - log_reward` and accumulates, keyed by the per-action
trajectory index, the `forward_log_prob - backward_log_prob` term of every
action belonging to that trajectory. -/
theorem compute_objective_output_is_mean_squared_delta
    (source_log_flow log_reward forward_log_prob backward_log_prob : List ℚ)
    (index : List ℕ)
    (hn : log_reward.length = source_log_flow.length)
    (hf : forward_log_prob.length = index.length)
    (hb : backward_log_prob.length = index.length)
    (_hidx : ∀ j ∈ index, j < source_log_flow.length) :
    compute_objective_output source_log_flow log_reward forward_log_prob
        backward_log_prob index =
      (∑ i in Finset.range source_log_flow.length,
        (source_log_flow.getD i 0 - log_reward.getD i 0 +
          ∑ j in (Finset.range index.length).filter
              (fun j => index.getD j 0 = i),
            (forward_log_prob.getD j 0 - backward_log_prob.getD j 0)) ^ 2)
        / source_log_flow.length := by
  have hco : compute_objective_output source_log_flow log_reward forward_log_prob
      backward_log_prob index =
      ((scatterAddPairs (List.zipWith (· - ·) source_log_flow log_reward)
          (index.zip (List.zipWith (· - ·) forward_log_prob backward_log_prob))).map
        fun d => d ^ 2).sum /
      ((scatterAddPairs (List.zipWith (· - ·) source_log_flow log_reward)
          (index.zip (List.zipWith (· - ·) forward_log_prob
            backward_log_prob))).length : ℚ) := rfl
  rw [hco]
  set n := source_log_flow.length with hn'
  set input := List.zipWith (· - ·) source_log_flow log_reward with hinput
  set src := List.zipWith (· - ·) forward_log_prob backward_log_prob with hsrc
  have hinlen : input.length = n := by
    rw [hinput, List.length_zipWith, hn, Nat.min_self]
  have hsrclen : src.length = index.length := by
    rw [hsrc, List.length_zipWith, hf, hb, Nat.min_self]
  have hdlen : (scatterAddPairs input (index.zip src)).length = n := by
    rw [scatterAddPairs_length, hinlen]
  rw [list_map_sq_sum, hdlen]
  congr 1
  apply Finset.sum_congr rfl
  intro i hi
  have hi' : i < n := Finset.mem_range.mp hi
  have h1 : input.getD i 0 = source_log_flow.getD i 0 - log_reward.getD i 0 := by
    rw [hinput]
    exact getD_zipWith_sub _ _ _ hi' (hn ▸ hi')
  rw [scatterAddPairs_getD _ _ _ (hinlen ▸ hi'), h1, zip_filter_sum _ _ hsrclen]
  have h2 : (∑ j in (Finset.range index.length).filter (fun j => index.getD j 0 = i),
        src.getD j 0)
      = ∑ j in (Finset.range index.length).filter (fun j => index.getD j 0 = i),
          (forward_log_prob.getD j 0 - backward_log_prob.getD j 0) := by
    apply Finset.sum_congr rfl
    intro j hj
    have hj' : j < index.length := Finset.mem_range.mp (Finset.mem_filter.mp hj).1
    rw [hsrc]
    exact getD_zipWith_sub _ _ _ (hf ▸ hj') (hb ▸ hj')
  rw [h2]

/-- Witness for C1 at a concrete input: two trajectories, three actions with
index tensor `[0,0,1]`. -/
theorem compute_objective_output_is_mean_squared_delta_witness :
    compute_objective_output [1, 2] [3, 1] [1, 1, 2] [0, 1, 1] [0, 0, 1] =
      (∑ i in Finset.range 2,
        (([1, 2] : List ℚ).getD i 0 - ([3, 1] : List ℚ).getD i 0 +
          ∑ j in (Finset.range 3).filter (fun j => ([0, 0, 1] : List ℕ).getD j 0 = i),
            (([1, 1, 2] : List ℚ).getD j 0 - ([0, 1, 1] : List ℚ).getD j 0)) ^ 2)
        / 2 :=
  compute_objective_output_is_mean_squared_delta [1, 2] [3, 1] [1, 1, 2] [0, 1, 1]
    [0, 0, 1] (by decide) (by decide) (by decide) (by decide)

/-! ### `rgfn/api/reward.py`

Proxy values are embedded as exact rationals; the numeric backend's `exp` and
`log` are opaque function parameters (`rexp`, `rlog`).  `-infinity` (the
`min_log_reward` when `min_reward <= 0`) is encoded as `none`, under which
`torch.clamp(x, min=-inf) = x`.  The fallible constructor returns `Except`. -/

inductive RewardBoosting where
  | linear
  | exponential
deriving DecidableEq

/-- The slice of the proxy contract that `Reward` consumes:
`compute_proxy_output(states).value` (embedded pointwise over the batch),
`is_non_negative` and `higher_is_better`. -/
structure ProxyModel (σ : Type) where
  value : σ → ℚ
  is_non_negative : Bool
  higher_is_better : Bool

/-- The state of a constructed `Reward` object (fields set by `__init__`). -/
structure Reward (σ : Type) where
  proxy : ProxyModel σ
  reward_boosting : RewardBoosting
  min_reward : ℚ
  min_log_reward : Option ℚ
  beta : ℚ

/-- `torch.clamp(x, min=m)` where `m = none` encodes `min=-infinity`. -/
def clampMin (m : Option ℚ) (x : ℚ) : ℚ :=
  match m with
  | none => x
  | some b => max x b

/-- Embedding of `Reward.__init__` (lines 31-45): raises when
`reward_boosting == "linear" and not proxy.is_non_negative`, otherwise stores
the fields, with `min_log_reward = log(min_reward) if min_reward > 0 else
-inf`. -/
def Reward.init {σ : Type} (rlog : ℚ → ℚ) (proxy : ProxyModel σ)
    (reward_boosting : RewardBoosting) (min_reward beta : ℚ) :
    Except String (Reward σ) :=
  if reward_boosting = RewardBoosting.linear ∧ proxy.is_non_negative = false then
    Except.error "Reward boosting is linear but proxy is not non-negative!"
  else
    Except.ok
      { proxy := proxy
        reward_boosting := reward_boosting
        min_reward := min_reward
        min_log_reward := if min_reward > 0 then some (rlog min_reward) else none
        beta := beta }

/-- Output record of `compute_reward_output`. -/
structure RewardOutput where
  log_reward : List ℚ
  reward : List ℚ
  proxy : List ℚ
deriving DecidableEq

/-- Embedding of `Reward.compute_reward_output` (lines 47-75). -/
def compute_reward_output {σ : Type} (rexp rlog : ℚ → ℚ) (r : Reward σ)
    (states : List σ) : RewardOutput :=
  let value := states.map r.proxy.value
  let signed_value :=
    if r.proxy.higher_is_better then value else value.map fun v => -v
  if r.reward_boosting = RewardBoosting.linear then
    let reward := (signed_value.map fun v => v * r.beta).map
      fun x => max x r.min_reward
    { log_reward := reward.map rlog, reward := reward, proxy := value }
  else
    let log_reward := (signed_value.map fun v => v * r.beta).map
      fun x => clampMin r.min_log_reward x
    { log_reward := log_reward, reward := log_reward.map rexp, proxy := value }

/-- C6: with exponential boosting, `compute_reward_output` returns
`log_reward = clamp(beta * signed_value, min = log(min_reward) if
min_reward > 0 else -infinity)` and `reward = exp(log_reward)`, where
`signed_value` is the proxy value negated when `higher_is_better` is false. -/
theorem compute_reward_output_exponential {σ : Type} (rexp rlog : ℚ → ℚ)
    (proxy : ProxyModel σ) (min_reward beta : ℚ) (r : Reward σ)
    (hok : Reward.init rlog proxy RewardBoosting.exponential min_reward beta
      = Except.ok r) (states : List σ) :
    (compute_reward_output rexp rlog r states).log_reward =
        states.map (fun s =>
          clampMin (if min_reward > 0 then some (rlog min_reward) else none)
            (beta * (if proxy.higher_is_better then proxy.value s
              else -(proxy.value s))))
      ∧ (compute_reward_output rexp rlog r states).reward =
          (compute_reward_output rexp rlog r states).log_reward.map rexp := by
  have hr : r = { proxy := proxy
                  reward_boosting := RewardBoosting.exponential
                  min_reward := min_reward
                  min_log_reward :=
                    if min_reward > 0 then some (rlog min_reward) else none
                  beta := beta } := by
    unfold Reward.init at hok
    simp only [false_and, if_neg, reduceCtorEq] at hok
    · exact (Except.ok.injEq _ _ ▸ hok.symm : _)
  subst hr
  refine ⟨?_, ?_⟩
  · unfold compute_reward_output
    simp only [if_neg (by decide : ¬(RewardBoosting.exponential = RewardBoosting.linear))]
    by_cases hb : proxy.higher_is_better
    · simp only [hb, if_true, List.map_map]
      apply List.map_congr_left
      intro s _
      simp [Function.comp, mul_comm]
    · simp only [hb, Bool.false_eq_true, if_false, List.map_map]
      apply List.map_congr_left
      intro s _
      simp [Function.comp, mul_comm]
  · unfold compute_reward_output
    simp only [if_neg (by decide : ¬(RewardBoosting.exponential = RewardBoosting.linear))]

/-- Witness for C6 at a concrete input: an inverted-polarity proxy, `beta = 2`,
`min_reward = 0` (so the clamp floor is `-infinity`). -/
theorem compute_reward_output_exponential_witness :
    (compute_reward_output (fun x => x + 100) (fun x => x - 100)
        { proxy := ⟨fun s : ℚ => s, false, false⟩
          reward_boosting := RewardBoosting.exponential
          min_reward := 0
          min_log_reward := none
          beta := 2 } [3, -1]).log_reward =
      ([3, -1] : List ℚ).map (fun s =>
        clampMin (if (0 : ℚ) > 0 then some ((fun x => x - 100) (0 : ℚ)) else none)
          (2 * (if false = true then s else -s))) := by
  have h := compute_reward_output_exponential (σ := ℚ) (fun x => x + 100)
    (fun x => x - 100) ⟨fun s => s, false, false⟩ 0 2 _ rfl [3, -1]
  exact h.1

/-- C7: constructing a `Reward` with `reward_boosting = "linear"` and a proxy
whose `is_non_negative` flag is false raises at construction time (the
constructor returns an error before any reward is computed); every other
combination of boosting mode and proxy polarity constructs successfully. -/
theorem Reward_init_rejects_linear_with_signed_proxy {σ : Type} (rlog : ℚ → ℚ)
    (proxy : ProxyModel σ) (boosting : RewardBoosting) (min_reward beta : ℚ) :
    ((∃ e, Reward.init rlog proxy boosting min_reward beta = Except.error e)
        ↔ boosting = RewardBoosting.linear ∧ proxy.is_non_negative = false)
      ∧ ((∃ r, Reward.init rlog proxy boosting min_reward beta = Except.ok r)
        ↔ ¬(boosting = RewardBoosting.linear ∧ proxy.is_non_negative = false)) := by
  unfold Reward.init
  by_cases h : boosting = RewardBoosting.linear ∧ proxy.is_non_negative = false
  · rw [if_pos h]
    simp [h]
  · rw [if_neg h]
    simp [h]

/-! ### `rgfn/gfns/reaction_gfn/api/data_structures.py`: `Cache`

The Python dict is embedded as an insertion-ordered association list (existing
keys update in place keeping their position; new keys append at the end).
`int(1.05 * max_size)` is written `21 * max_size / 20` in ℕ: for every
`max_size ≤ 10^14` the float product `1.05 * max_size` truncates to exactly
`⌊21 * max_size / 20⌋` because float `1.05` exceeds `21/20` by under `10^-16`
relatively, and the exact fractional part is either `0` or at least `1/20`.
The claim concerns finite `max_size`, so `max_size = None` is not modelled. -/

/-- `int(1.05 * max_size)` (line 151). -/
def realMaxSize (max_size : ℕ) : ℕ :=
  21 * max_size / 20

structure Cache (κ ν : Type) where
  cache : List (κ × ν)
  max_size : ℕ

/-- Embedding of `Cache._limit_the_size` (lines 164-170): when the dict holds
more than `max_size` entries, pop the first `len - max_size` keys in dict
(insertion) order. -/
def Cache.limitTheSize {κ ν : Type} (c : Cache κ ν) : Cache κ ν :=
  if c.cache.length ≤ c.max_size then c
  else { c with cache := c.cache.drop (c.cache.length - c.max_size) }

/-- Embedding of `Cache.__setitem__` (lines 159-162): store the pair, then if
the entry count reached `real_max_size`, limit the size. -/
def Cache.setItem {κ ν : Type} [DecidableEq κ] (c : Cache κ ν) (k : κ) (v : ν) :
    Cache κ ν :=
  let stored :=
    if c.cache.any fun p => p.1 = k then
      { c with cache := c.cache.map fun p => if p.1 = k then (k, v) else p }
    else
      { c with cache := c.cache ++ [(k, v)] }
  if stored.cache.length ≥ realMaxSize stored.max_size then stored.limitTheSize
  else stored

/-- A fresh `Cache(max_size)` into which the listed keys are inserted in order
via `__setitem__`. -/
def insertAll {κ : Type} [DecidableEq κ] (M : ℕ) (ks : List κ) : Cache κ Unit :=
  ks.foldl (fun c k => c.setItem k ()) ⟨[], M⟩

lemma limitTheSize_max_size {κ ν : Type} (c : Cache κ ν) :
    c.limitTheSize.max_size = c.max_size := by
  unfold Cache.limitTheSize
  split <;> rfl

lemma setItem_max_size {κ ν : Type} [DecidableEq κ] (c : Cache κ ν) (k : κ)
    (v : ν) :
    (c.setItem k v).max_size = c.max_size := by
  unfold Cache.setItem
  dsimp only
  split <;> split <;> simp [limitTheSize_max_size]

lemma foldl_setItem_max_size {κ : Type} [DecidableEq κ] (ks : List κ)
    (c : Cache κ Unit) :
    (ks.foldl (fun c k => c.setItem k ()) c).max_size = c.max_size := by
  induction ks generalizing c with
  | nil => rfl
  | cons k t ih =>
    rw [List.foldl_cons, ih, setItem_max_size]

lemma setItem_fresh {κ : Type} [DecidableEq κ] (c : Cache κ Unit) (k : κ)
    (hk : ∀ p ∈ c.cache, p.1 ≠ k) :
    (c.setItem k ()).cache =
      if realMaxSize c.max_size ≤ c.cache.length + 1 ∧
          c.max_size < c.cache.length + 1 then
        (c.cache ++ [(k, ())]).drop (c.cache.length + 1 - c.max_size)
      else c.cache ++ [(k, ())] := by
  have hany : (c.cache.any fun p => p.1 = k) = false := by
    rw [List.any_eq_false]
    intro p hp
    simpa using hk p hp
  unfold Cache.setItem Cache.limitTheSize
  simp only [hany, Bool.false_eq_true, if_false, List.length_append,
    List.length_cons, List.length_nil, Nat.zero_add, ge_iff_le]
  by_cases h1 : realMaxSize c.max_size ≤ c.cache.length + 1
  · rw [if_pos h1]
    by_cases h2 : c.cache.length + 1 ≤ c.max_size
    · rw [if_pos h2, if_neg (by omega)]
    · rw [if_neg h2, if_pos ⟨h1, by omega⟩]
  · rw [if_neg h1, if_neg (by omega)]

lemma insertAll_suffix {κ : Type} [DecidableEq κ] (M : ℕ) (ks : List κ)
    (hnd : ks.Nodup) :
    ((insertAll M ks).cache.map Prod.fst =
        ks.drop (ks.length - (insertAll M ks).cache.length))
      ∧ (insertAll M ks).cache.length ≤ max (realMaxSize M - 1) M
      ∧ (insertAll M ks).cache.length ≤ ks.length := by
  induction ks using List.reverseRecOn with
  | nil => exact ⟨rfl, by simp [insertAll], by simp [insertAll]⟩
  | append_singleton ks k ih =>
    have hnd' : ks.Nodup := (List.nodup_append.mp hnd).1
    have hk : k ∉ ks := by
      intro hmem
      have := (List.nodup_append.mp hnd).2.2
      exact this hmem (List.mem_singleton_self k)
    obtain ⟨ihkeys, ihbound, ihlen⟩ := ih hnd'
    have hstep : insertAll M (ks ++ [k]) = (insertAll M ks).setItem k () := by
      unfold insertAll
      rw [List.foldl_append, List.foldl_cons, List.foldl_nil]
    have hmax : (insertAll M ks).max_size = M := foldl_setItem_max_size ks _
    have hfresh : ∀ p ∈ (insertAll M ks).cache, p.1 ≠ k := by
      intro p hp heq
      have hfst : p.1 ∈ (insertAll M ks).cache.map Prod.fst :=
        List.mem_map_of_mem Prod.fst hp
      rw [ihkeys] at hfst
      exact hk (heq ▸ List.mem_of_mem_drop hfst)
    set c := insertAll M ks with hc
    set len := c.cache.length with hlen
    have hkeysapp : c.cache.map Prod.fst ++ [k] =
        (ks ++ [k]).drop (ks.length - len) := by
      rw [ihkeys, List.drop_append_of_le_length (by omega)]
    rw [hstep, setItem_fresh _ _ hfresh, hmax]
    by_cases hcond : realMaxSize M ≤ len + 1 ∧ M < len + 1
    · rw [if_pos hcond]
      refine ⟨?_, ?_, ?_⟩
      · rw [List.map_drop, List.map_append, List.map_singleton, hkeysapp,
          List.drop_drop]
        congr 1
        simp only [List.length_drop, List.length_append, List.length_cons,
          List.length_nil]
        omega
      · rw [List.length_drop]
        refine le_trans ?_ (le_max_right (realMaxSize M - 1) M)
        simp only [List.length_append, List.length_cons, List.length_nil]
        omega
      · rw [List.length_drop]
        simp only [List.length_append, List.length_cons, List.length_nil]
        omega
    · rw [if_neg hcond]
      have hsmall : len + 1 ≤ max (realMaxSize M - 1) M := by
        rcases Decidable.not_and_iff_or_not.mp hcond with h | h
        · exact le_trans (by omega) (le_max_left (realMaxSize M - 1) M)
        · exact le_trans (by omega) (le_max_right (realMaxSize M - 1) M)
      refine ⟨?_, ?_, ?_⟩
      · rw [List.map_append, List.map_singleton, hkeysapp]
        congr 1
        simp only [List.length_append, List.length_cons, List.length_nil]
        omega
      · simp only [List.length_append, List.length_cons, List.length_nil]
        exact hsmall
      · simp only [List.length_append, List.length_cons, List.length_nil]
        omega

/-- C9: inserting distinct keys into a `Cache` with finite `max_size = M`
triggers eviction once the entry count reaches `int(1.05 * M)`, removing the
oldest-inserted keys first (insertion order) until exactly `M` entries remain;
hence after every `__setitem__` the cache holds at most
`max(int(1.05 * M) - 1, M)` entries. -/
theorem Cache_insertion_order_eviction {κ : Type} [DecidableEq κ] (M : ℕ)
    (ks : List κ) (hnd : ks.Nodup) :
    (insertAll M ks).cache.length ≤ max (realMaxSize M - 1) M
    ∧ ((insertAll M ks).cache.map Prod.fst =
        ks.drop (ks.length - (insertAll M ks).cache.length))
    ∧ (∀ k, k ∉ ks → realMaxSize M ≤ (insertAll M ks).cache.length + 1 →
        (insertAll M (ks ++ [k])).cache.length =
          min ((insertAll M ks).cache.length + 1) M) := by
  obtain ⟨hkeys, hbound, hlen⟩ := insertAll_suffix M ks hnd
  refine ⟨hbound, hkeys, ?_⟩
  intro k hk hR
  have hstep : insertAll M (ks ++ [k]) = (insertAll M ks).setItem k () := by
    unfold insertAll
    rw [List.foldl_append, List.foldl_cons, List.foldl_nil]
  have hmax : (insertAll M ks).max_size = M := foldl_setItem_max_size ks _
  have hfresh : ∀ p ∈ (insertAll M ks).cache, p.1 ≠ k := by
    intro p hp heq
    have hfst : p.1 ∈ (insertAll M ks).cache.map Prod.fst :=
      List.mem_map_of_mem Prod.fst hp
    rw [hkeys] at hfst
    exact hk (heq ▸ List.mem_of_mem_drop hfst)
  rw [hstep, setItem_fresh _ _ hfresh, hmax]
  by_cases hM : M < (insertAll M ks).cache.length + 1
  · rw [if_pos ⟨hR, hM⟩, List.length_drop, List.length_append,
      List.length_singleton]
    omega
  · rw [if_neg (by tauto), List.length_append, List.length_singleton]
    omega

/-- Witness for C9 at `M = 2` (`int(1.05*2) = 2`) and keys `[0,1,2]`: the
cache retains the two newest keys `[1,2]`, and inserting the fresh key `3`
evicts down to `min(3, 2) = 2` entries. -/
theorem Cache_insertion_order_eviction_witness :
    (insertAll 2 [0, 1, 2]).cache.length ≤ max (realMaxSize 2 - 1) 2 ∧
      (insertAll 2 ([0, 1, 2] ++ [3])).cache.length =
        min ((insertAll 2 [0, 1, 2]).cache.length + 1) 2 :=
  ⟨(Cache_insertion_order_eviction 2 [0, 1, 2] (by decide)).1,
    (Cache_insertion_order_eviction 2 [0, 1, 2] (by decide)).2.2 3 (by decide)
      (by decide)⟩

/-! ### `rgfn/utils/helpers.py`: `ContentHeap`

`heapq` is the Python standard library; it is embedded through its contract:
the heap is kept sorted by `value` so its head is a minimal element,
`heappush` inserts preserving sortedness, and `heappushpop` pushes the new
tuple and pops a minimal one (returning the new tuple itself when the heap is
empty or no stored value is strictly smaller, exactly as
`heapq.heappushpop`).  `ComparableTuple` compares by `value` alone. -/

structure ComparableTuple (ι : Type) where
  value : ℚ
  item : ι
deriving DecidableEq

/-- `heapq.heappush` under the sorted-list heap representation. -/
def heappush {ι : Type} (heap : List (ComparableTuple ι))
    (x : ComparableTuple ι) : List (ComparableTuple ι) :=
  List.orderedInsert (fun a b => a.value ≤ b.value) x heap

/-- `heapq.heappushpop` under the sorted-list heap representation: returns the
popped tuple and the new heap. -/
def heappushpop {ι : Type} (heap : List (ComparableTuple ι))
    (x : ComparableTuple ι) : ComparableTuple ι × List (ComparableTuple ι) :=
  match heap with
  | [] => (x, [])
  | m :: t =>
    if m.value < x.value then
      (m, List.orderedInsert (fun a b => a.value ≤ b.value) x t)
    else (x, m :: t)

structure ContentHeap (ι : Type) where
  max_size : ℕ
  heap : List (ComparableTuple ι)
  items : Finset ι

/-- Embedding of `ContentHeap.push` (`helpers.py` lines 35-43). -/
def ContentHeap.push {ι : Type} [DecidableEq ι] (c : ContentHeap ι) (value : ℚ)
    (item : ι) : ContentHeap ι :=
  if item ∈ c.items then c
  else
    let items' := insert item c.items
    if c.heap.length < c.max_size then
      { c with heap := heappush c.heap ⟨value, item⟩, items := items' }
    else
      let t := heappushpop c.heap ⟨value, item⟩
      { c with heap := t.2, items := items'.erase t.1.item }

/-- `ContentHeap(max_size)` followed by the listed `push(value, item)` calls. -/
def pushAll {ι : Type} [DecidableEq ι] (max_size : ℕ) (ops : List (ℚ × ι)) :
    ContentHeap ι :=
  ops.foldl (fun c op => c.push op.1 op.2) ⟨max_size, [], ∅⟩

/-- The invariant maintained by `push`. -/
def HeapInv {ι : Type} [DecidableEq ι] (M : ℕ) (c : ContentHeap ι) : Prop :=
  c.max_size = M ∧ c.heap.length ≤ M ∧
    c.items = (c.heap.map ComparableTuple.item).toFinset ∧
    (c.heap.map ComparableTuple.item).Nodup

lemma perm_toFinset {α : Type} [DecidableEq α] {l₁ l₂ : List α}
    (h : List.Perm l₁ l₂) : l₁.toFinset = l₂.toFinset :=
  Finset.ext fun a => by simp [h.mem_iff]

lemma insert_insert_erase {ι : Type} [DecidableEq ι] (it mi : ι) (T : Finset ι)
    (hne : it ≠ mi) (hmi : mi ∉ T) :
    (insert it (insert mi T)).erase mi = insert it T := by
  ext a
  simp only [Finset.mem_erase, Finset.mem_insert]
  constructor
  · rintro ⟨ha, h | h | h⟩ <;> tauto
  · rintro (h | h)
    · subst h
      exact ⟨hne, Or.inl rfl⟩
    · exact ⟨fun he => hmi (he ▸ h), Or.inr (Or.inr h)⟩

lemma push_preserves_inv {ι : Type} [DecidableEq ι] (M : ℕ) (c : ContentHeap ι)
    (hc : HeapInv M c) (v : ℚ) (it : ι) : HeapInv M (c.push v it) := by
  obtain ⟨hmax, hlen, hitems, hnd⟩ := hc
  unfold ContentHeap.push
  by_cases hmem : it ∈ c.items
  · rw [if_pos hmem]
    exact ⟨hmax, hlen, hitems, hnd⟩
  · rw [if_neg hmem]
    dsimp only
    have hitnot : it ∉ c.heap.map ComparableTuple.item := by
      rw [hitems] at hmem
      simpa using hmem
    by_cases hsz : c.heap.length < c.max_size
    · rw [if_pos hsz]
      have hperm :
          List.Perm ((heappush c.heap ⟨v, it⟩).map ComparableTuple.item)
            (it :: c.heap.map ComparableTuple.item) := by
        have hp := (List.perm_orderedInsert (fun a b => a.value ≤ b.value)
          ⟨v, it⟩ c.heap).map ComparableTuple.item
        simpa [heappush] using hp
      refine ⟨hmax, ?_, ?_, ?_⟩
      · have hl : (heappush c.heap ⟨v, it⟩).length = c.heap.length + 1 := by
          have := hperm.length_eq
          simpa using this
        show (heappush c.heap ⟨v, it⟩).length ≤ M
        omega
      · rw [perm_toFinset hperm, List.toFinset_cons, hitems]
      · exact hperm.symm.nodup (List.nodup_cons.mpr ⟨hitnot, hnd⟩)
    · rw [if_neg hsz]
      cases hcheap : c.heap with
      | nil =>
        simp only [heappushpop]
        refine ⟨hmax, by simp, ?_, by simp⟩
        rw [Finset.erase_insert hmem, hitems, hcheap]
      | cons m t =>
        rw [hcheap] at hitems hnd hlen hitnot
        simp only [heappushpop]
        by_cases hlt : m.value < (⟨v, it⟩ : ComparableTuple ι).value
        · rw [if_pos hlt]
          have hperm :
              List.Perm ((List.orderedInsert (fun a b => a.value ≤ b.value)
                  (⟨v, it⟩ : ComparableTuple ι) t).map ComparableTuple.item)
                (it :: t.map ComparableTuple.item) := by
            have hp := (List.perm_orderedInsert (fun a b => a.value ≤ b.value)
              ⟨v, it⟩ t).map ComparableTuple.item
            simpa using hp
          have hndmt : m.item ∉ t.map ComparableTuple.item := by
            simp only [List.map_cons, List.nodup_cons] at hnd
            exact hnd.1
          have hitne : it ≠ m.item := by
            intro he
            apply hmem
            rw [hitems, List.map_cons, List.toFinset_cons]
            exact he ▸ Finset.mem_insert_self _ _
          have hitt : it ∉ t.map ComparableTuple.item := by
            intro hmem2
            apply hmem
            rw [hitems, List.map_cons, List.toFinset_cons]
            exact Finset.mem_insert_of_mem (List.mem_toFinset.mpr hmem2)
          refine ⟨hmax, ?_, ?_, ?_⟩
          · have hl := hperm.length_eq
            simp only [List.length_map, List.length_cons] at hl
            simp only [List.length_cons] at hlen
            show (List.orderedInsert (fun a b => a.value ≤ b.value)
              (⟨v, it⟩ : ComparableTuple ι) t).length ≤ M
            omega
          · rw [perm_toFinset hperm, List.toFinset_cons, hitems,
              List.map_cons, List.toFinset_cons]
            exact insert_insert_erase it m.item _ hitne
              (fun hin => hndmt (List.mem_toFinset.mp hin))
          · exact hperm.symm.nodup (List.nodup_cons.mpr ⟨hitt,
              (List.nodup_cons.mp (List.map_cons ComparableTuple.item m t ▸
                hnd)).2⟩)
        · rw [if_neg hlt]
          refine ⟨hmax, hlen, ?_, hnd⟩
          rw [Finset.erase_insert hmem, hitems]

lemma pushAll_inv {ι : Type} [DecidableEq ι] (M : ℕ) (ops : List (ℚ × ι)) :
    HeapInv M (pushAll M ops) := by
  unfold pushAll
  have hgen : ∀ c : ContentHeap ι, HeapInv M c →
      HeapInv M (ops.foldl (fun c op => c.push op.1 op.2) c) := by
    induction ops with
    | nil => intro c hc; exact hc
    | cons op t ih =>
      intro c hc
      rw [List.foldl_cons]
      exact ih _ (push_preserves_inv M c hc op.1 op.2)
  exact hgen _ ⟨rfl, by simp, by simp, by simp⟩

/-- C10: for every `ContentHeap` with capacity `max_size` and every sequence of
`push(value, item)` calls, the number of stored entries never exceeds
`max_size`, the auxiliary `items` set always equals the set of items currently
stored in the heap, and pushing an item already present leaves the heap and the
`items` set unchanged regardless of the new value. -/
theorem ContentHeap_push_invariants {ι : Type} [DecidableEq ι] (M : ℕ)
    (ops : List (ℚ × ι)) :
    (pushAll M ops).heap.length ≤ M
    ∧ (pushAll M ops).items =
        ((pushAll M ops).heap.map ComparableTuple.item).toFinset
    ∧ ∀ (v : ℚ) (it : ι), it ∈ (pushAll M ops).heap.map ComparableTuple.item →
        (pushAll M ops).push v it = pushAll M ops := by
  obtain ⟨hmax, hlen, hitems, hnd⟩ := pushAll_inv M ops
  refine ⟨hlen, hitems, ?_⟩
  intro v it hit
  unfold ContentHeap.push
  rw [if_pos (by rw [hitems]; exact List.mem_toFinset.mpr hit)]

/-- Witness for C10: capacity 1, pushes `(1,0)` then `(2,1)`; the retained item
is `1`, and re-pushing item `1` with a different value is a no-op. -/
theorem ContentHeap_push_invariants_witness :
    (pushAll 1 [(1, 0), (2, 1)] : ContentHeap ℕ).push 5 1 =
      pushAll 1 [(1, 0), (2, 1)] :=
  (ContentHeap_push_invariants 1 [(1, 0), (2, 1)]).2.2 5 1 (by decide)

/-! ### `rgfn/shared/policies/few_phase_policy.py`

The runtime type of an `ActionSpace` is embedded as a tag (`tag : AS → ℕ`),
following the closed-tagged-union reading of the `isinstance`-keyed dispatch
dict (`action_space_to_forward_fn`); dict keys are distinct, which appears as
a `Nodup` hypothesis on the table's tags.  The shared embeddings and the dense
per-phase log-probability matrix are abstracted into a per-element function
(`σ → AS → α` for sampling, after the categorical draw; `σ → AS → α → ℚ` for
scoring), since the claims under verification concern only the
partition/recombination bookkeeping.  `Categorical.sample` is a fixed
realization, hence deterministic per element here.  Python list indexing that
can raise `IndexError` is `Option`-valued (`get?`), and reading an entry of
the `torch.empty`-allocated `state_to_action_idx` tensor that was never
written (arbitrary memory in the real code) is modelled as `none`; claims are
only made on executions where every entry is written. -/

/-- `phase_indices` computation, keeping the enumerated payloads: the
positions of `xs` whose payload has tag `t`, in original order. -/
def phaseFilter {τ : Type} (tagOf : τ → ℕ) (xs : List τ) (t : ℕ) :
    List (ℕ × τ) :=
  xs.enum.filter fun p => tagOf p.2 = t

/-- One iteration of the dispatch loop body: skip an empty partition,
otherwise append the per-phase output block and extend the flat position
list. -/
def dispatchStep {τ ρ : Type} (tagOf : τ → ℕ) (xs : List τ)
    (acc : List (List ρ) × List ℕ) (e : ℕ × (τ → ρ)) :
    List (List ρ) × List ℕ :=
  let phase := phaseFilter tagOf xs e.1
  if phase.isEmpty then acc
  else (acc.1 ++ [phase.map fun p => e.2 p.2], acc.2 ++ phase.map Prod.fst)

/-- The phase fold shared verbatim by `sample_actions` (lines 47-63) and
`compute_action_log_probs` (lines 95-114): iterate over the dispatch table,
accumulating the non-empty per-phase output blocks and the flat list of batch
positions (`action_to_state_idx` / `log_probs_to_state_idx`). -/
def dispatch {τ ρ : Type} (tagOf : τ → ℕ) (table : List (ℕ × (τ → ρ)))
    (xs : List τ) : List (List ρ) × List ℕ :=
  table.foldl (dispatchStep tagOf xs) ([], [])

/-- The output block a table entry would contribute. -/
def blockOf {τ ρ : Type} (tagOf : τ → ℕ) (xs : List τ) (e : ℕ × (τ → ρ)) :
    List ρ :=
  (phaseFilter tagOf xs e.1).map fun p => e.2 p.2

/-- The positions a table entry contributes. -/
def idxOf {τ ρ : Type} (tagOf : τ → ℕ) (xs : List τ) (e : ℕ × (τ → ρ)) :
    List ℕ :=
  (phaseFilter tagOf xs e.1).map Prod.fst

lemma dispatch_foldl_acc {τ ρ : Type} (tagOf : τ → ℕ) (xs : List τ)
    (table : List (ℕ × (τ → ρ))) :
    ∀ acc : List (List ρ) × List ℕ,
      table.foldl (dispatchStep tagOf xs) acc =
        (acc.1 ++ (table.map (blockOf tagOf xs)).filter
            (fun b => b.isEmpty = false),
         acc.2 ++ (table.map (idxOf tagOf xs)).flatten) := by
  induction table with
  | nil => intro acc; simp
  | cons e t ih =>
    intro acc
    rw [List.foldl_cons, ih]
    by_cases hp : (phaseFilter tagOf xs e.1).isEmpty
    · have hfil : phaseFilter tagOf xs e.1 = [] := List.isEmpty_iff.mp hp
      have hstep : dispatchStep tagOf xs acc e = acc := by
        unfold dispatchStep
        rw [if_pos hp]
      rw [hstep, List.map_cons, List.map_cons, List.filter_cons,
        List.flatten_cons]
      have hblock : blockOf tagOf xs e = [] := by
        unfold blockOf
        rw [hfil, List.map_nil]
      have hidx : idxOf tagOf xs e = [] := by
        unfold idxOf
        rw [hfil, List.map_nil]
      rw [hblock, hidx]
      simp
    · have hstep : dispatchStep tagOf xs acc e =
          (acc.1 ++ [blockOf tagOf xs e], acc.2 ++ idxOf tagOf xs e) := by
        unfold dispatchStep blockOf idxOf
        rw [if_neg hp]
      rw [hstep, List.map_cons, List.map_cons, List.filter_cons,
        List.flatten_cons]
      have hkeep : (blockOf tagOf xs e).isEmpty = false := by
        unfold blockOf
        rcases hq : phaseFilter tagOf xs e.1 with _ | ⟨p, t'⟩
        · exact absurd (List.isEmpty_iff.mpr hq) hp
        · rfl
      rw [hkeep]
      simp [List.append_assoc]

/-- `dispatch` returns exactly the non-empty per-phase blocks (in table
order) and the concatenation of all per-phase position lists. -/
lemma dispatch_eq {τ ρ : Type} (tagOf : τ → ℕ) (table : List (ℕ × (τ → ρ)))
    (xs : List τ) :
    dispatch tagOf table xs =
      ((table.map (blockOf tagOf xs)).filter (fun b => b.isEmpty = false),
       (table.map (idxOf tagOf xs)).flatten) := by
  unfold dispatch
  rw [dispatch_foldl_acc]
  simp

lemma flatten_filter_nonempty {ρ : Type} (L : List (List ρ)) :
    (L.filter fun b => b.isEmpty = false).flatten = L.flatten := by
  induction L with
  | nil => rfl
  | cons b t ih =>
    rcases b with _ | ⟨x, t'⟩
    · simpa using ih
    · have ih' : (List.filter (fun b => !b.isEmpty) t).flatten = t.flatten := by
        simpa using ih
      simp only [List.filter_cons]
      simp [ih']

/-- The per-phase enumerated payloads paired with their table entry, in the
order the dispatch loop visits them. -/
def zipOf {τ ρ : Type} (tagOf : τ → ℕ) (table : List (ℕ × (τ → ρ)))
    (xs : List τ) : List ((ℕ × τ) × (ℕ × (τ → ρ))) :=
  (table.map fun e => (phaseFilter tagOf xs e.1).map fun p => (p, e)).flatten

lemma idx_flatten_eq {τ ρ : Type} (tagOf : τ → ℕ)
    (table : List (ℕ × (τ → ρ))) (xs : List τ) :
    (table.map (idxOf tagOf xs)).flatten =
      (zipOf tagOf table xs).map fun q => q.1.1 := by
  unfold zipOf idxOf
  rw [List.map_flatten, List.map_map]
  congr 1
  apply List.map_congr_left
  intro e _
  simp only [Function.comp_apply, List.map_map]
  apply List.map_congr_left
  intro p _
  rfl

lemma block_flatten_eq {τ ρ : Type} (tagOf : τ → ℕ)
    (table : List (ℕ × (τ → ρ))) (xs : List τ) :
    (table.map (blockOf tagOf xs)).flatten =
      (zipOf tagOf table xs).map fun q => q.2.2 q.1.2 := by
  unfold zipOf blockOf
  rw [List.map_flatten, List.map_map]
  congr 1
  apply List.map_congr_left
  intro e _
  simp only [Function.comp_apply, List.map_map]
  apply List.map_congr_left
  intro p _
  rfl

lemma zipOf_mem {τ ρ : Type} (tagOf : τ → ℕ) (table : List (ℕ × (τ → ρ)))
    (xs : List τ) :
    ∀ q ∈ zipOf tagOf table xs,
      q.2 ∈ table ∧ q.1 ∈ xs.enum ∧ tagOf q.1.2 = q.2.1 := by
  intro q hq
  unfold zipOf at hq
  rw [List.mem_flatten] at hq
  obtain ⟨b, hb, hqb⟩ := hq
  rw [List.mem_map] at hb
  obtain ⟨e, he, rfl⟩ := hb
  rw [List.mem_map] at hqb
  obtain ⟨p, hp, rfl⟩ := hqb
  unfold phaseFilter at hp
  rw [List.mem_filter] at hp
  exact ⟨he, hp.1, by simpa using hp.2⟩

lemma idxOf_nodup {τ ρ : Type} (tagOf : τ → ℕ) (xs : List τ)
    (e : ℕ × (τ → ρ)) : (idxOf tagOf xs e).Nodup := by
  unfold idxOf phaseFilter
  have hsub : ((xs.enum.filter fun p => tagOf p.2 = e.1).map Prod.fst).Sublist
      (xs.enum.map Prod.fst) := (List.filter_sublist _).map _
  have hrange : (xs.enum.map Prod.fst).Nodup := by
    rw [List.enum_map_fst]
    exact List.nodup_range _
  exact hrange.sublist hsub

lemma mem_enum_eq {τ : Type} (xs : List τ) {p₁ p₂ : ℕ × τ}
    (h₁ : p₁ ∈ xs.enum) (h₂ : p₂ ∈ xs.enum) (hfst : p₁.1 = p₂.1) :
    p₁ = p₂ := by
  obtain ⟨i₁, a₁⟩ := p₁
  obtain ⟨i₂, a₂⟩ := p₂
  rw [List.mem_enum_iff_getElem?] at h₁ h₂
  cases hfst
  rw [h₁] at h₂
  exact Prod.ext rfl (Option.some_inj.mp h₂)

lemma a2s_nodup {τ ρ : Type} (tagOf : τ → ℕ) (table : List (ℕ × (τ → ρ)))
    (xs : List τ) (hnd : (table.map Prod.fst).Nodup) :
    ((table.map (idxOf tagOf xs)).flatten).Nodup := by
  rw [List.nodup_flatten]
  constructor
  · intro l hl
    rw [List.mem_map] at hl
    obtain ⟨e, _, rfl⟩ := hl
    exact idxOf_nodup tagOf xs e
  · rw [List.pairwise_map]
    refine List.Pairwise.imp ?_ (List.pairwise_map.mp hnd)
    intro e₁ e₂ hne
    intro i hi₁ hi₂
    unfold idxOf phaseFilter at hi₁ hi₂
    rw [List.mem_map] at hi₁ hi₂
    obtain ⟨p₁, hp₁, hp₁i⟩ := hi₁
    obtain ⟨p₂, hp₂, hp₂i⟩ := hi₂
    rw [List.mem_filter] at hp₁ hp₂
    have hpe : p₁ = p₂ := mem_enum_eq xs hp₁.1 hp₂.1 (by rw [hp₁i, hp₂i])
    apply hne
    have ht₁ : tagOf p₁.2 = e₁.1 := by simpa using hp₁.2
    have ht₂ : tagOf p₂.2 = e₂.1 := by simpa using hp₂.2
    rw [← ht₁, hpe, ht₂]

lemma getD_set_ne {γ : Type} (arr : List γ) (a b : ℕ) (v d : γ) (hne : a ≠ b) :
    (arr.set a v).getD b d = arr.getD b d := by
  rcases Nat.lt_or_ge b arr.length with hb | hb
  · rw [List.getD_eq_getElem _ _ (by simpa using hb), List.getD_eq_getElem _ _ hb]
    simp [List.getElem_set, hne]
  · rw [List.getD_eq_default _ _ (by simpa using hb),
      List.getD_eq_default _ _ hb]

lemma getD_set_self {γ : Type} (arr : List γ) (a : ℕ) (v d : γ)
    (ha : a < arr.length) :
    (arr.set a v).getD a d = v := by
  rw [List.getD_eq_getElem _ _ (by simpa using ha)]
  simp [List.getElem_set]

lemma scatter_length {γ : Type} (w : ℕ → γ) (ps : List (ℕ × ℕ))
    (init : List γ) :
    (ps.foldl (fun arr ji => arr.set ji.2 (w ji.1)) init).length =
      init.length := by
  induction ps generalizing init with
  | nil => rfl
  | cons p t ih => rw [List.foldl_cons, ih, List.length_set]

lemma scatter_getD {γ : Type} (w : ℕ → γ) (l : List ℕ) (init : List γ)
    (d : γ) (hnd : l.Nodup) (hin : ∀ x ∈ l, x < init.length) :
    ∀ j, (hj : j < l.length) →
      (l.enum.foldl (fun arr ji => arr.set ji.2 (w ji.1)) init).getD
        (l.get ⟨j, hj⟩) d = w j := by
  induction l using List.reverseRecOn with
  | nil => intro j hj; simp at hj
  | append_singleton l x ih =>
    have henum : (l ++ [x]).enum = l.enum ++ [(l.length, x)] := by
      simp [List.enum_append, List.enumFrom]
    have hnd' : l.Nodup := (List.nodup_append.mp hnd).1
    have hx : x ∉ l := by
      intro hmem
      exact (List.nodup_append.mp hnd).2.2 hmem (List.mem_singleton_self x)
    have hin' : ∀ y ∈ l, y < init.length := fun y hy =>
      hin y (List.mem_append_left _ hy)
    intro j hj
    rw [henum, List.foldl_append, List.foldl_cons, List.foldl_nil]
    rcases Nat.lt_or_ge j l.length with hjl | hjl
    · have hget : (l ++ [x]).get ⟨j, hj⟩ = l.get ⟨j, hjl⟩ := by
        simp [List.getElem_append_left hjl]
      rw [hget, getD_set_ne _ _ _ _ _ (by
          intro he
          apply hx
          have he' : x = l.get ⟨j, hjl⟩ := he
          rw [he']
          exact List.get_mem l j hjl),
        ih hnd' hin' j hjl]
    · have hjx : j = l.length := by
        have := hj
        simp only [List.length_append, List.length_cons, List.length_nil] at this
        omega
      subst hjx
      have hget : (l ++ [x]).get ⟨l.length, hj⟩ = x := by
        simp
      rw [hget]
      exact getD_set_self _ _ _ _ (by
        rw [scatter_length]
        exact hin x (List.mem_append_right _ (List.mem_singleton_self x)))

lemma enum_fst_lt {τ : Type} {xs : List τ} {p : ℕ × τ} (hp : p ∈ xs.enum) :
    p.1 < xs.length := by
  obtain ⟨i, a⟩ := p
  rw [List.mem_enum_iff_getElem?] at hp
  by_contra hge
  push_neg at hge
  rw [List.getElem?_eq_none (by omega)] at hp
  cases hp

lemma self_mem_enum {τ : Type} (xs : List τ) (i : ℕ) (hi : i < xs.length) :
    (i, xs.get ⟨i, hi⟩) ∈ xs.enum := by
  rw [List.mem_enum_iff_getElem?]
  simp [List.getElem?_eq_getElem hi]

lemma a2s_cover {τ ρ : Type} (tagOf : τ → ℕ) (table : List (ℕ × (τ → ρ)))
    (xs : List τ) (i : ℕ) (hi : i < xs.length) (e : ℕ × (τ → ρ))
    (he : e ∈ table) (ht : e.1 = tagOf (xs.get ⟨i, hi⟩)) :
    i ∈ (table.map (idxOf tagOf xs)).flatten := by
  rw [List.mem_flatten]
  refine ⟨idxOf tagOf xs e, List.mem_map_of_mem _ he, ?_⟩
  unfold idxOf phaseFilter
  rw [List.mem_map]
  refine ⟨(i, xs.get ⟨i, hi⟩), ?_, rfl⟩
  rw [List.mem_filter]
  exact ⟨self_mem_enum xs i hi, by simp [ht]⟩

/-- Central recombination lemma: when the dispatch table's tags are distinct
and position `i`'s payload has registered tag (witnessed by entry `e`), the
scatter of `action_to_state_idx` sends `i` to a flat position `j` at which the
concatenated per-phase outputs hold exactly `e`'s function applied to `i`'s
payload. -/
lemma dispatch_recombine {τ ρ γ : Type} (tagOf : τ → ℕ)
    (table : List (ℕ × (τ → ρ))) (xs : List τ) (w : ℕ → γ) (init : List γ)
    (d : γ) (hinit : init.length = xs.length)
    (hnd : (table.map Prod.fst).Nodup)
    (i : ℕ) (hi : i < xs.length) (e : ℕ × (τ → ρ)) (he : e ∈ table)
    (ht : e.1 = tagOf (xs.get ⟨i, hi⟩)) :
    ∃ j, j < ((table.map (blockOf tagOf xs)).flatten).length ∧
      ((((table.map (idxOf tagOf xs)).flatten).enum.foldl
          (fun arr ji => arr.set ji.2 (w ji.1)) init).getD i d = w j)
      ∧ ((table.map (blockOf tagOf xs)).flatten).get? j =
          some (e.2 (xs.get ⟨i, hi⟩)) := by
  have hZa := idx_flatten_eq tagOf table xs
  have hZc := block_flatten_eq tagOf table xs
  have hAlen : ((table.map (idxOf tagOf xs)).flatten).length =
      (zipOf tagOf table xs).length := by
    rw [hZa, List.length_map]
  have hClen : ((table.map (blockOf tagOf xs)).flatten).length =
      (zipOf tagOf table xs).length := by
    rw [hZc, List.length_map]
  have hmemA : i ∈ (table.map (idxOf tagOf xs)).flatten :=
    a2s_cover tagOf table xs i hi e he ht
  obtain ⟨⟨j, hj⟩, hget⟩ := List.mem_iff_get.mp hmemA
  have hbound : ∀ x ∈ (table.map (idxOf tagOf xs)).flatten,
      x < init.length := by
    intro x hx
    rw [hZa, List.mem_map] at hx
    obtain ⟨q, hq, rfl⟩ := hx
    have hqe := (zipOf_mem tagOf table xs q hq).2.1
    rw [hinit]
    exact enum_fst_lt hqe
  have hndA := a2s_nodup tagOf table xs hnd
  refine ⟨j, by omega, ?_, ?_⟩
  · have hs := scatter_getD w ((table.map (idxOf tagOf xs)).flatten) init d
      hndA hbound j hj
    rw [hget] at hs
    exact hs
  · have hq? : ((table.map (idxOf tagOf xs)).flatten).get? j = some i := by
      rw [List.get?_eq_get hj, hget]
    rw [hZa, List.get?_map] at hq?
    obtain ⟨q, hqZ, hq11⟩ := Option.map_eq_some'.mp hq?
    have hqmem : q ∈ zipOf tagOf table xs := List.get?_mem hqZ
    obtain ⟨hq2, hq1enum, hqtag⟩ := zipOf_mem tagOf table xs q hqmem
    have hq1 : q.1 = (i, xs.get ⟨i, hi⟩) :=
      mem_enum_eq xs hq1enum (self_mem_enum xs i hi) (by simpa using hq11)
    have hq2e : q.2 = e :=
      List.inj_on_of_nodup_map hnd hq2 he (by
        rw [← hqtag, hq1]
        exact ht.symm)
    rw [hZc, List.get?_map, hqZ, Option.map_some', hq2e, hq1]

/-- Embedding of `FewPhasePolicyBase.sample_actions` (lines 42-69): run the
phase fold, then build `state_to_action_idx` as a zero-initialized array
overwritten at `state_idx` with `action_idx` for each collected position, and
read `actions[state_to_action_idx[i]]` for every batch position (`get?`
models the possible `IndexError`). -/
def sample_actions {σ AS α : Type} (tag : AS → ℕ)
    (table : List (ℕ × (σ → AS → α))) (states : List σ)
    (action_spaces : List AS) : Option (List α) :=
  let d := dispatch (fun p => tag p.2)
    (table.map fun e => (e.1, fun p : σ × AS => e.2 p.1 p.2))
    (states.zip action_spaces)
  let actions := d.1.flatten
  let state_to_action_idx := d.2.enum.foldl
    (fun arr ji => arr.set ji.2 ji.1) (List.replicate states.length 0)
  (List.range states.length).mapM fun i =>
    actions.get? (state_to_action_idx.getD i 0)

/-- Embedding of `FewPhasePolicyBase.compute_action_log_probs` (lines 90-122):
run the phase fold over `(state, action_space, action)` triples,
`torch.cat` the per-phase blocks (failing on an empty block list), scatter the
positions into the `torch.empty`-allocated index tensor (unwritten entries are
`none`), and gather. -/
def compute_action_log_probs {σ AS α : Type} (tag : AS → ℕ)
    (table : List (ℕ × (σ → AS → α → ℚ))) (states : List σ)
    (action_spaces : List AS) (actions : List α) : Option (List ℚ) :=
  let d := dispatch (fun p => tag p.1.2)
    (table.map fun e => (e.1, fun p : (σ × AS) × α => e.2 p.1.1 p.1.2 p.2))
    ((states.zip action_spaces).zip actions)
  if d.1.isEmpty then none
  else
    let log_probs := d.1.flatten
    let state_to_action_idx := d.2.enum.foldl
      (fun arr ji => arr.set ji.2 (some ji.1))
      (List.replicate states.length (none : Option ℕ))
    (List.range states.length).mapM fun i =>
      (state_to_action_idx.getD i none).bind fun j => log_probs.get? j

lemma mapM_option_some {α β : Type} (f : α → Option β) (l : List α)
    (h : ∀ a ∈ l, ∃ b, f a = some b) :
    ∃ out, l.mapM f = some out ∧ out.length = l.length ∧
      ∀ k a, l.get? k = some a → out.get? k = f a := by
  induction l with
  | nil => exact ⟨[], rfl, rfl, by intro k a hk; simp at hk⟩
  | cons a t ih =>
    obtain ⟨b, hb⟩ := h a (List.mem_cons_self a t)
    obtain ⟨out, hout, hlen, hget⟩ :=
      ih fun x hx => h x (List.mem_cons_of_mem a hx)
    refine ⟨b :: out, ?_, by simp [hlen], ?_⟩
    · rw [List.mapM_cons, hb, hout]
      rfl
    · intro k x hk
      cases k with
      | zero =>
        simp only [List.get?_cons_zero, Option.some.injEq] at hk
        subst hk
        simp [hb]
      | succ k =>
        simp only [List.get?_cons_succ] at hk ⊢
        exact hget k x hk

/-- `sample_actions` on an all-registered batch: succeeds with one output per
state, in original batch order, each state receiving its own phase function's
result. -/
lemma sample_actions_registered {σ AS α : Type} (tag : AS → ℕ)
    (table : List (ℕ × (σ → AS → α))) (states : List σ)
    (action_spaces : List AS)
    (hlen : action_spaces.length = states.length)
    (hnd : (table.map Prod.fst).Nodup)
    (hcov : ∀ sp ∈ action_spaces, ∃ e ∈ table, e.1 = tag sp) :
    ∃ out, sample_actions tag table states action_spaces = some out ∧
      out.length = states.length ∧
      ∀ i st sp, states.get? i = some st → action_spaces.get? i = some sp →
        ∃ e ∈ table, e.1 = tag sp ∧ out.get? i = some (e.2 st sp) := by
  have hxlen : (states.zip action_spaces).length = states.length := by
    rw [List.length_zip, hlen, Nat.min_self]
  have hndT : ((table.map fun e =>
      ((e.1 : ℕ), fun p : σ × AS => e.2 p.1 p.2)).map Prod.fst).Nodup := by
    rw [List.map_map]
    exact hnd
  have h0 : sample_actions tag table states action_spaces =
      (List.range states.length).mapM fun i =>
        ((dispatch (fun p : σ × AS => tag p.2)
            (table.map fun e => (e.1, fun p : σ × AS => e.2 p.1 p.2))
            (states.zip action_spaces)).1.flatten).get?
          (((dispatch (fun p : σ × AS => tag p.2)
              (table.map fun e => (e.1, fun p : σ × AS => e.2 p.1 p.2))
              (states.zip action_spaces)).2.enum.foldl
              (fun arr ji => arr.set ji.2 ji.1)
              (List.replicate states.length 0)).getD i 0) := rfl
  rw [h0, dispatch_eq]
  dsimp only
  rw [flatten_filter_nonempty]
  have hkey : ∀ i, i < states.length →
      ∀ (hi : i < states.length) (hia : i < action_spaces.length),
      ∃ e ∈ table, e.1 = tag (action_spaces.get ⟨i, hia⟩) ∧
        (((table.map fun e => ((e.1 : ℕ), fun p : σ × AS => e.2 p.1 p.2)).map
            (blockOf (fun p : σ × AS => tag p.2)
              (states.zip action_spaces))).flatten).get?
          (((((table.map fun e =>
                ((e.1 : ℕ), fun p : σ × AS => e.2 p.1 p.2)).map
              (idxOf (fun p : σ × AS => tag p.2)
                (states.zip action_spaces))).flatten).enum.foldl
              (fun arr ji => arr.set ji.2 ji.1)
              (List.replicate states.length 0)).getD i 0) =
          some (e.2 (states.get ⟨i, hi⟩) (action_spaces.get ⟨i, hia⟩)) := by
    intro i _ hi hia
    obtain ⟨e, he, hetag⟩ :=
      hcov (action_spaces.get ⟨i, hia⟩) (List.get_mem _ i hia)
    have hix : i < (states.zip action_spaces).length := by omega
    have hxsi : (states.zip action_spaces).get ⟨i, hix⟩ =
        (states.get ⟨i, hi⟩, action_spaces.get ⟨i, hia⟩) := by
      simp [List.get_eq_getElem, List.getElem_zip]
    obtain ⟨j, hjC, hfold, hact⟩ :=
      dispatch_recombine (fun p : σ × AS => tag p.2)
        (table.map fun e => (e.1, fun p : σ × AS => e.2 p.1 p.2))
        (states.zip action_spaces) (fun v => v)
        (List.replicate states.length 0) 0
        (by rw [List.length_replicate, hxlen]) hndT i hix
        (e.1, fun p : σ × AS => e.2 p.1 p.2)
        (List.mem_map_of_mem _ he)
        (by rw [hxsi, hetag])
    refine ⟨e, he, hetag.symm ▸ rfl, ?_⟩
    have hfold' :
        (((((table.map fun e =>
              ((e.1 : ℕ), fun p : σ × AS => e.2 p.1 p.2)).map
            (idxOf (fun p : σ × AS => tag p.2)
              (states.zip action_spaces))).flatten).enum.foldl
            (fun arr ji => arr.set ji.2 ji.1)
            (List.replicate states.length 0)).getD i 0) = j := hfold
    rw [hfold', hact, hxsi]
  obtain ⟨out, hout, holen, hoget⟩ := mapM_option_some _ (List.range states.length)
    (by
      intro i hi
      rw [List.mem_range] at hi
      have hia : i < action_spaces.length := by omega
      obtain ⟨e, _, _, hval⟩ := hkey i hi hi hia
      exact ⟨_, hval⟩)
  refine ⟨out, hout, by rw [holen, List.length_range], ?_⟩
  intro i st sp hst hsp
  have hi : i < states.length := by
    by_contra hge
    push_neg at hge
    rw [List.get?_eq_none.mpr (by omega)] at hst
    cases hst
  have hia : i < action_spaces.length := by omega
  have hstv : st = states.get ⟨i, hi⟩ := by
    rw [List.get?_eq_get hi] at hst
    exact (Option.some_inj.mp hst).symm
  have hspv : sp = action_spaces.get ⟨i, hia⟩ := by
    rw [List.get?_eq_get hia] at hsp
    exact (Option.some_inj.mp hsp).symm
  obtain ⟨e, he, hetag, hval⟩ := hkey i hi hi hia
  refine ⟨e, he, by rw [hspv]; exact hetag, ?_⟩
  have hrg : (List.range states.length).get? i = some i := List.get?_range hi
  rw [hoget i i hrg, hval, hstv, hspv]

/-- `compute_action_log_probs` on a non-empty all-registered batch: succeeds
with one log-probability per state, in original batch order, each state
receiving its own phase function's result. -/
lemma compute_action_log_probs_registered {σ AS α : Type} (tag : AS → ℕ)
    (table : List (ℕ × (σ → AS → α → ℚ))) (states : List σ)
    (action_spaces : List AS) (actions : List α)
    (hlen : action_spaces.length = states.length)
    (halen : actions.length = states.length)
    (hne : states ≠ [])
    (hnd : (table.map Prod.fst).Nodup)
    (hcov : ∀ sp ∈ action_spaces, ∃ e ∈ table, e.1 = tag sp) :
    ∃ out, compute_action_log_probs tag table states action_spaces actions
        = some out ∧
      out.length = states.length ∧
      ∀ i st sp a, states.get? i = some st → action_spaces.get? i = some sp →
        actions.get? i = some a →
        ∃ e ∈ table, e.1 = tag sp ∧ out.get? i = some (e.2 st sp a) := by
  have hplen : (states.zip action_spaces).length = states.length := by
    rw [List.length_zip, hlen, Nat.min_self]
  have hxlen : (((states.zip action_spaces).zip actions)).length =
      states.length := by
    rw [List.length_zip, hplen, halen, Nat.min_self]
  have hpos : 0 < states.length := by
    cases states with
    | nil => exact absurd rfl hne
    | cons s t => simp
  have hndT : ((table.map fun e => ((e.1 : ℕ),
      fun p : (σ × AS) × α => e.2 p.1.1 p.1.2 p.2)).map Prod.fst).Nodup := by
    rw [List.map_map]
    exact hnd
  have h0 : compute_action_log_probs tag table states action_spaces actions =
      (if (dispatch (fun p : (σ × AS) × α => tag p.1.2)
            (table.map fun e =>
              (e.1, fun p : (σ × AS) × α => e.2 p.1.1 p.1.2 p.2))
            ((states.zip action_spaces).zip actions)).1.isEmpty then none
        else
          (List.range states.length).mapM fun i =>
            ((((dispatch (fun p : (σ × AS) × α => tag p.1.2)
                (table.map fun e =>
                  (e.1, fun p : (σ × AS) × α => e.2 p.1.1 p.1.2 p.2))
                ((states.zip action_spaces).zip actions)).2.enum.foldl
                (fun arr ji => arr.set ji.2 (some ji.1))
                (List.replicate states.length (none : Option ℕ))).getD i
                none).bind fun j =>
              ((dispatch (fun p : (σ × AS) × α => tag p.1.2)
                (table.map fun e =>
                  (e.1, fun p : (σ × AS) × α => e.2 p.1.1 p.1.2 p.2))
                ((states.zip action_spaces).zip actions)).1.flatten).get? j)) :=
    rfl
  rw [h0, dispatch_eq]
  dsimp only
  rw [flatten_filter_nonempty]
  have hia0 : 0 < action_spaces.length := by omega
  have hix0 : 0 < ((states.zip action_spaces).zip actions).length := by omega
  obtain ⟨e0, he0, he0tag⟩ :=
    hcov (action_spaces.get ⟨0, hia0⟩) (List.get_mem _ 0 hia0)
  have hxs0 : (((states.zip action_spaces).zip actions).get ⟨0, hix0⟩).1.2 =
      action_spaces.get ⟨0, hia0⟩ := by
    simp [List.get_eq_getElem, List.getElem_zip]
  have hmem0 : (0 : ℕ) ∈ ((table.map fun e => ((e.1 : ℕ),
      fun p : (σ × AS) × α => e.2 p.1.1 p.1.2 p.2)).map
        (idxOf (fun p : (σ × AS) × α => tag p.1.2)
          ((states.zip action_spaces).zip actions))).flatten :=
    a2s_cover _ _ _ 0 hix0 _ (List.mem_map_of_mem _ he0) (by
      show e0.1 = tag (((states.zip action_spaces).zip actions).get
        ⟨0, hix0⟩).1.2
      rw [hxs0, he0tag])
  have hfne : ¬((table.map fun e => ((e.1 : ℕ),
      fun p : (σ × AS) × α => e.2 p.1.1 p.1.2 p.2)).map
        (blockOf (fun p : (σ × AS) × α => tag p.1.2)
          ((states.zip action_spaces).zip actions))).filter
        (fun b => b.isEmpty = false) = [] := by
    intro hf
    have hfl : (((table.map fun e => ((e.1 : ℕ),
        fun p : (σ × AS) × α => e.2 p.1.1 p.1.2 p.2)).map
          (blockOf (fun p : (σ × AS) × α => tag p.1.2)
            ((states.zip action_spaces).zip actions))).filter
          (fun b => b.isEmpty = false)).flatten = [] := by
      rw [hf]
      rfl
    rw [flatten_filter_nonempty, block_flatten_eq] at hfl
    have hZnil := List.map_eq_nil_iff.mp hfl
    rw [idx_flatten_eq, hZnil] at hmem0
    simp at hmem0
  rw [if_neg (fun hemp => hfne (List.isEmpty_iff.mp hemp))]
  have hkey : ∀ i, i < states.length →
      ∀ (hi : i < states.length) (hia : i < action_spaces.length)
        (hic : i < actions.length),
      ∃ e ∈ table, e.1 = tag (action_spaces.get ⟨i, hia⟩) ∧
        (((((table.map fun e => ((e.1 : ℕ),
                fun p : (σ × AS) × α => e.2 p.1.1 p.1.2 p.2)).map
              (idxOf (fun p : (σ × AS) × α => tag p.1.2)
                ((states.zip action_spaces).zip actions))).flatten).enum.foldl
              (fun arr ji => arr.set ji.2 (some ji.1))
              (List.replicate states.length (none : Option ℕ))).getD i
              none).bind (fun j =>
            (((table.map fun e => ((e.1 : ℕ),
                fun p : (σ × AS) × α => e.2 p.1.1 p.1.2 p.2)).map
              (blockOf (fun p : (σ × AS) × α => tag p.1.2)
                ((states.zip action_spaces).zip actions))).flatten).get? j) =
          some (e.2 (states.get ⟨i, hi⟩) (action_spaces.get ⟨i, hia⟩)
            (actions.get ⟨i, hic⟩)) := by
    intro i _ hi hia hic
    obtain ⟨e, he, hetag⟩ :=
      hcov (action_spaces.get ⟨i, hia⟩) (List.get_mem _ i hia)
    have hix : i < ((states.zip action_spaces).zip actions).length := by omega
    have hxsi : ((states.zip action_spaces).zip actions).get ⟨i, hix⟩ =
        ((states.get ⟨i, hi⟩, action_spaces.get ⟨i, hia⟩),
          actions.get ⟨i, hic⟩) := by
      simp [List.get_eq_getElem, List.getElem_zip]
    obtain ⟨j, hjC, hfold, hact⟩ :=
      dispatch_recombine (fun p : (σ × AS) × α => tag p.1.2)
        (table.map fun e =>
          (e.1, fun p : (σ × AS) × α => e.2 p.1.1 p.1.2 p.2))
        ((states.zip action_spaces).zip actions) (fun v => some v)
        (List.replicate states.length (none : Option ℕ)) none
        (by rw [List.length_replicate, hxlen]) hndT i hix
        (e.1, fun p : (σ × AS) × α => e.2 p.1.1 p.1.2 p.2)
        (List.mem_map_of_mem _ he)
        (by rw [hxsi, hetag])
    refine ⟨e, he, hetag.symm ▸ rfl, ?_⟩
    have hfold' :
        (((((table.map fun e => ((e.1 : ℕ),
              fun p : (σ × AS) × α => e.2 p.1.1 p.1.2 p.2)).map
            (idxOf (fun p : (σ × AS) × α => tag p.1.2)
              ((states.zip action_spaces).zip actions))).flatten).enum.foldl
            (fun arr ji => arr.set ji.2 (some ji.1))
            (List.replicate states.length (none : Option ℕ))).getD i
            none) = some j := hfold
    rw [hfold']
    simp only [Option.some_bind]
    rw [hact, hxsi]
  obtain ⟨out, hout, holen, hoget⟩ := mapM_option_some _
    (List.range states.length)
    (by
      intro i hi
      rw [List.mem_range] at hi
      have hia : i < action_spaces.length := by omega
      have hic : i < actions.length := by omega
      obtain ⟨e, _, _, hval⟩ := hkey i hi hi hia hic
      exact ⟨_, hval⟩)
  refine ⟨out, hout, by rw [holen, List.length_range], ?_⟩
  intro i st sp a hst hsp ha
  have hi : i < states.length := by
    by_contra hge
    push_neg at hge
    rw [List.get?_eq_none.mpr (by omega)] at hst
    cases hst
  have hia : i < action_spaces.length := by omega
  have hic : i < actions.length := by omega
  have hstv : st = states.get ⟨i, hi⟩ := by
    rw [List.get?_eq_get hi] at hst
    exact (Option.some_inj.mp hst).symm
  have hspv : sp = action_spaces.get ⟨i, hia⟩ := by
    rw [List.get?_eq_get hia] at hsp
    exact (Option.some_inj.mp hsp).symm
  have hav : a = actions.get ⟨i, hic⟩ := by
    rw [List.get?_eq_get hic] at ha
    exact (Option.some_inj.mp ha).symm
  obtain ⟨e, he, hetag, hval⟩ := hkey i hi hi hia hic
  refine ⟨e, he, by rw [hspv]; exact hetag, ?_⟩
  have hrg : (List.range states.length).get? i = some i := List.get?_range hi
  rw [hoget i i hrg, hval, hstv, hspv, hav]

lemma enum_snd_mem {τ : Type} {xs : List τ} {p : ℕ × τ} (hp : p ∈ xs.enum) :
    p.2 ∈ xs := by
  obtain ⟨i, a⟩ := p
  rw [List.mem_enum_iff_getElem?] at hp
  have hi : i < xs.length := by
    by_contra hge
    push_neg at hge
    rw [List.getElem?_eq_none (by omega)] at hp
    cases hp
  rw [List.getElem?_eq_getElem hi] at hp
  have := Option.some_inj.mp hp
  rw [← this]
  exact List.getElem_mem hi

lemma phaseFilter_eq_nil {τ : Type} (tagOf : τ → ℕ) (xs : List τ) (t : ℕ)
    (h : ∀ x ∈ xs, tagOf x ≠ t) : phaseFilter tagOf xs t = [] := by
  unfold phaseFilter
  apply List.filter_eq_nil_iff.mpr
  intro p hp
  simp [h p.2 (enum_snd_mem hp)]

/-- A dispatch-table entry whose tag matches no payload in the batch is
skipped: removing it from the table leaves `dispatch` unchanged. -/
lemma dispatch_skips_unrepresented {τ ρ : Type} (tagOf : τ → ℕ)
    (t₁ t₂ : List (ℕ × (τ → ρ))) (e₀ : ℕ × (τ → ρ)) (xs : List τ)
    (h : ∀ x ∈ xs, tagOf x ≠ e₀.1) :
    dispatch tagOf (t₁ ++ e₀ :: t₂) xs = dispatch tagOf (t₁ ++ t₂) xs := by
  unfold dispatch
  rw [List.foldl_append, List.foldl_append, List.foldl_cons]
  congr 1
  unfold dispatchStep
  have hfil : phaseFilter tagOf xs e₀.1 = [] := phaseFilter_eq_nil tagOf xs _ h
  simp [hfil]

lemma scatter_getD_notmem {γ : Type} (w : ℕ → γ) (ps : List (ℕ × ℕ))
    (init : List γ) (d : γ) (i : ℕ) (h : ∀ p ∈ ps, p.2 ≠ i) :
    (ps.foldl (fun arr ji => arr.set ji.2 (w ji.1)) init).getD i d =
      init.getD i d := by
  induction ps generalizing init with
  | nil => rfl
  | cons p t ih =>
    rw [List.foldl_cons, ih _ fun q hq => h q (List.mem_cons_of_mem p hq),
      getD_set_ne _ _ _ _ _ (h p (List.mem_cons_self p t))]

lemma mapM_option_none {α β : Type} (f : α → Option β) (l : List α)
    (h : ∃ a ∈ l, f a = none) : l.mapM f = none := by
  induction l with
  | nil =>
    obtain ⟨a, ha, _⟩ := h
    cases ha
  | cons b t ih =>
    rw [List.mapM_cons]
    obtain ⟨a, ha, hfa⟩ := h
    rcases List.mem_cons.mp ha with rfl | hat
    · rw [hfa]
      rfl
    · cases hfb : f b with
      | none => rfl
      | some v =>
        rw [ih ⟨a, hat, hfa⟩]
        rfl

lemma blockOf_eq_nil {τ ρ : Type} (tagOf : τ → ℕ) (xs : List τ)
    (e : ℕ × (τ → ρ)) (h : ∀ x ∈ xs, tagOf x ≠ e.1) :
    blockOf tagOf xs e = [] := by
  unfold blockOf
  rw [phaseFilter_eq_nil tagOf xs _ h, List.map_nil]

lemma idxOf_eq_nil {τ ρ : Type} (tagOf : τ → ℕ) (xs : List τ)
    (e : ℕ × (τ → ρ)) (h : ∀ x ∈ xs, tagOf x ≠ e.1) :
    idxOf tagOf xs e = [] := by
  unfold idxOf
  rw [phaseFilter_eq_nil tagOf xs _ h, List.map_nil]

lemma mapM_option_get {α β : Type} (f : α → Option β) (l : List α)
    (out : List β) (h : l.mapM f = some out) :
    ∀ k a, l.get? k = some a → out.get? k = f a := by
  induction l generalizing out with
  | nil => intro k a hk; simp at hk
  | cons b t ih =>
    rw [List.mapM_cons] at h
    cases hfb : f b with
    | none =>
      rw [hfb] at h
      simp at h
    | some v =>
      rw [hfb] at h
      cases hft : t.mapM f with
      | none =>
        rw [hft] at h
        simp at h
      | some outs =>
        rw [hft] at h
        simp at h
        have hout : out = v :: outs := h.symm
        subst hout
        intro k a hk
        cases k with
        | zero =>
          simp only [List.get?_cons_zero, Option.some.injEq] at hk
          subst hk
          simp [hfb]
        | succ k =>
          simp only [List.get?_cons_succ] at hk ⊢
          exact ih outs hft k a hk

/-- When no state in the batch has a registered action-space type and the
batch is non-empty, `sample_actions` fails (`actions[0]` raises
`IndexError` on the empty flat action list). -/
lemma sample_actions_no_match {σ AS α : Type} (tag : AS → ℕ)
    (table : List (ℕ × (σ → AS → α))) (states : List σ)
    (action_spaces : List AS)
    (hne : states ≠ [])
    (h : ∀ sp ∈ action_spaces, ∀ e ∈ table, e.1 ≠ tag sp) :
    sample_actions tag table states action_spaces = none := by
  have h0 : sample_actions tag table states action_spaces =
      (List.range states.length).mapM fun i =>
        ((dispatch (fun p : σ × AS => tag p.2)
            (table.map fun e => (e.1, fun p : σ × AS => e.2 p.1 p.2))
            (states.zip action_spaces)).1.flatten).get?
          (((dispatch (fun p : σ × AS => tag p.2)
              (table.map fun e => (e.1, fun p : σ × AS => e.2 p.1 p.2))
              (states.zip action_spaces)).2.enum.foldl
              (fun arr ji => arr.set ji.2 ji.1)
              (List.replicate states.length 0)).getD i 0) := rfl
  rw [h0, dispatch_eq]
  dsimp only
  rw [flatten_filter_nonempty]
  have hblocks : ∀ e' ∈ table.map fun e =>
      ((e.1 : ℕ), fun p : σ × AS => e.2 p.1 p.2),
      blockOf (fun p : σ × AS => tag p.2) (states.zip action_spaces) e' = [] := by
    intro e' he'
    obtain ⟨e, he, rfl⟩ := List.mem_map.mp he'
    apply blockOf_eq_nil
    intro x hx
    exact (h x.2 (List.of_mem_zip hx).2 e he).symm
  have hACT : ((table.map fun e =>
      ((e.1 : ℕ), fun p : σ × AS => e.2 p.1 p.2)).map
        (blockOf (fun p : σ × AS => tag p.2)
          (states.zip action_spaces))).flatten = [] := by
    rw [List.flatten_eq_nil_iff]
    intro l hl
    obtain ⟨e', he', rfl⟩ := List.mem_map.mp hl
    exact hblocks e' he'
  rw [hACT]
  apply mapM_option_none
  refine ⟨0, ?_, rfl⟩
  rw [List.mem_range]
  cases states with
  | nil => exact absurd rfl hne
  | cons s t => simp

/-- When no state in the batch has a registered action-space type,
`compute_action_log_probs` fails (`torch.cat` on the empty block list). -/
lemma compute_action_log_probs_no_match {σ AS α : Type} (tag : AS → ℕ)
    (table : List (ℕ × (σ → AS → α → ℚ))) (states : List σ)
    (action_spaces : List AS) (actions : List α)
    (h : ∀ sp ∈ action_spaces, ∀ e ∈ table, e.1 ≠ tag sp) :
    compute_action_log_probs tag table states action_spaces actions = none := by
  unfold compute_action_log_probs
  rw [dispatch_eq]
  dsimp only
  have hfil : ((table.map fun e => ((e.1 : ℕ),
      fun p : (σ × AS) × α => e.2 p.1.1 p.1.2 p.2)).map
        (blockOf (fun p : (σ × AS) × α => tag p.1.2)
          ((states.zip action_spaces).zip actions))).filter
        (fun b => b.isEmpty = false) = [] := by
    apply List.filter_eq_nil_iff.mpr
    intro b hb
    obtain ⟨e', he', rfl⟩ := List.mem_map.mp hb
    obtain ⟨e, he, rfl⟩ := List.mem_map.mp he'
    have hnil : blockOf (fun p : (σ × AS) × α => tag p.1.2)
        ((states.zip action_spaces).zip actions)
        ((e.1 : ℕ), fun p : (σ × AS) × α => e.2 p.1.1 p.1.2 p.2) = [] := by
      apply blockOf_eq_nil
      intro x hx
      exact (h x.1.2 (List.of_mem_zip (List.of_mem_zip hx).1).2 e he).symm
    rw [hnil]
    simp
  rw [hfil]
  rfl

/-- When `sample_actions` succeeds on a batch containing a state whose
action-space type is unregistered, that state silently receives the entry at
flat action position `0` — another phase's output — instead of an error. -/
lemma sample_actions_unmatched_gets_first {σ AS α : Type} (tag : AS → ℕ)
    (table : List (ℕ × (σ → AS → α))) (states : List σ)
    (action_spaces : List AS) (out : List α)
    (hlen : action_spaces.length = states.length)
    (hout : sample_actions tag table states action_spaces = some out)
    (i : ℕ) (hi : i < states.length) (sp : AS)
    (hsp : action_spaces.get? i = some sp)
    (hu : ∀ e ∈ table, e.1 ≠ tag sp) :
    out.get? i =
      (((table.map fun e => ((e.1 : ℕ), fun p : σ × AS => e.2 p.1 p.2)).map
        (blockOf (fun p : σ × AS => tag p.2)
          (states.zip action_spaces))).flatten).get? 0 := by
  have hxlen : (states.zip action_spaces).length = states.length := by
    rw [List.length_zip, hlen, Nat.min_self]
  have hia : i < action_spaces.length := by omega
  have hix : i < (states.zip action_spaces).length := by omega
  have hspv : sp = action_spaces.get ⟨i, hia⟩ := by
    rw [List.get?_eq_get hia] at hsp
    exact (Option.some_inj.mp hsp).symm
  have h0 : sample_actions tag table states action_spaces =
      (List.range states.length).mapM fun i =>
        ((dispatch (fun p : σ × AS => tag p.2)
            (table.map fun e => (e.1, fun p : σ × AS => e.2 p.1 p.2))
            (states.zip action_spaces)).1.flatten).get?
          (((dispatch (fun p : σ × AS => tag p.2)
              (table.map fun e => (e.1, fun p : σ × AS => e.2 p.1 p.2))
              (states.zip action_spaces)).2.enum.foldl
              (fun arr ji => arr.set ji.2 ji.1)
              (List.replicate states.length 0)).getD i 0) := rfl
  rw [h0, dispatch_eq] at hout
  dsimp only at hout
  rw [flatten_filter_nonempty] at hout
  have hnotmem : i ∉ ((table.map fun e =>
      ((e.1 : ℕ), fun p : σ × AS => e.2 p.1 p.2)).map
        (idxOf (fun p : σ × AS => tag p.2) (states.zip action_spaces))).flatten := by
    intro hmem
    rw [List.mem_flatten] at hmem
    obtain ⟨b, hb, hib⟩ := hmem
    rw [List.mem_map] at hb
    obtain ⟨e', he', rfl⟩ := hb
    unfold idxOf at hib
    rw [List.mem_map] at hib
    obtain ⟨p, hp, hpi⟩ := hib
    unfold phaseFilter at hp
    rw [List.mem_filter] at hp
    have hpeq : p = (i, (states.zip action_spaces).get ⟨i, hix⟩) :=
      mem_enum_eq _ hp.1 (self_mem_enum _ i hix) (by simpa using hpi)
    have hsnd : p.2.2 = sp := by
      rw [hpeq, hspv]
      simp [List.get_eq_getElem, List.getElem_zip]
    obtain ⟨e, he, rfl⟩ := List.mem_map.mp he'
    have htag : tag p.2.2 = e.1 := by simpa using hp.2
    rw [hsnd] at htag
    exact hu e he htag.symm
  have hscat :
      (((((table.map fun e =>
            ((e.1 : ℕ), fun p : σ × AS => e.2 p.1 p.2)).map
          (idxOf (fun p : σ × AS => tag p.2)
            (states.zip action_spaces))).flatten).enum.foldl
          (fun arr ji => arr.set ji.2 ji.1)
          (List.replicate states.length 0)).getD i 0) = 0 := by
    have hsc := scatter_getD_notmem (fun v => v)
      (((table.map fun e =>
          ((e.1 : ℕ), fun p : σ × AS => e.2 p.1 p.2)).map
        (idxOf (fun p : σ × AS => tag p.2)
          (states.zip action_spaces))).flatten).enum
      (List.replicate states.length 0) 0 i
      (fun p hp hpe => hnotmem (hpe ▸ enum_snd_mem hp))
    rw [getD_replicate] at hsc
    exact hsc
  have hrg : (List.range states.length).get? i = some i := List.get?_range hi
  rw [mapM_option_get _ _ out hout i i hrg, hscat]

lemma sample_actions_skips_unrepresented {σ AS α : Type} (tag : AS → ℕ)
    (t₁ t₂ : List (ℕ × (σ → AS → α))) (e₀ : ℕ × (σ → AS → α))
    (states : List σ) (action_spaces : List AS)
    (h : ∀ sp ∈ action_spaces, tag sp ≠ e₀.1) :
    sample_actions tag (t₁ ++ e₀ :: t₂) states action_spaces =
      sample_actions tag (t₁ ++ t₂) states action_spaces := by
  have hd : dispatch (fun p : σ × AS => tag p.2)
      ((t₁ ++ e₀ :: t₂).map fun e => (e.1, fun p : σ × AS => e.2 p.1 p.2))
      (states.zip action_spaces)
      = dispatch (fun p : σ × AS => tag p.2)
        ((t₁ ++ t₂).map fun e => (e.1, fun p : σ × AS => e.2 p.1 p.2))
        (states.zip action_spaces) := by
    rw [List.map_append, List.map_cons, List.map_append]
    exact dispatch_skips_unrepresented _ _ _ _ _
      (fun x hx => h x.2 (List.of_mem_zip hx).2)
  unfold sample_actions
  rw [hd]

lemma compute_action_log_probs_skips_unrepresented {σ AS α : Type}
    (tag : AS → ℕ) (t₁ t₂ : List (ℕ × (σ → AS → α → ℚ)))
    (e₀ : ℕ × (σ → AS → α → ℚ)) (states : List σ)
    (action_spaces : List AS) (actions : List α)
    (h : ∀ sp ∈ action_spaces, tag sp ≠ e₀.1) :
    compute_action_log_probs tag (t₁ ++ e₀ :: t₂) states action_spaces actions =
      compute_action_log_probs tag (t₁ ++ t₂) states action_spaces actions := by
  have hd : dispatch (fun p : (σ × AS) × α => tag p.1.2)
      ((t₁ ++ e₀ :: t₂).map fun e =>
        (e.1, fun p : (σ × AS) × α => e.2 p.1.1 p.1.2 p.2))
      ((states.zip action_spaces).zip actions)
      = dispatch (fun p : (σ × AS) × α => tag p.1.2)
        ((t₁ ++ t₂).map fun e =>
          (e.1, fun p : (σ × AS) × α => e.2 p.1.1 p.1.2 p.2))
        ((states.zip action_spaces).zip actions) := by
    rw [List.map_append, List.map_cons, List.map_append]
    exact dispatch_skips_unrepresented _ _ _ _ _
      (fun x hx => h x.1.2 (List.of_mem_zip (List.of_mem_zip hx).1).2)
  unfold compute_action_log_probs
  rw [hd]

lemma dispatch_no_empty_block {τ ρ : Type} (tagOf : τ → ℕ)
    (table : List (ℕ × (τ → ρ))) (xs : List τ) :
    [] ∉ (dispatch tagOf table xs).1 := by
  rw [dispatch_eq]
  intro hmem
  have := List.of_mem_filter hmem
  simp at this

/-- C2 (amended): for every batch whose action spaces all have a registered
type, `sample_actions` — and, when the batch is non-empty,
`compute_action_log_probs` — partition the batch by action-space runtime type,
process each non-empty partition, and recombine so that the output has exactly
one entry per input state at that state's original batch position, with no
state's result lost or duplicated: position `i` receives its own phase
function's value on its own state. -/
theorem few_phase_dispatch_one_output_per_state :
    (∀ (σ AS α : Type) (tag : AS → ℕ) (table : List (ℕ × (σ → AS → α)))
        (states : List σ) (action_spaces : List AS),
        action_spaces.length = states.length →
        (table.map Prod.fst).Nodup →
        (∀ sp ∈ action_spaces, ∃ e ∈ table, e.1 = tag sp) →
        ∃ out, sample_actions tag table states action_spaces = some out ∧
          out.length = states.length ∧
          ∀ i st sp, states.get? i = some st → action_spaces.get? i = some sp →
            ∃ e ∈ table, e.1 = tag sp ∧ out.get? i = some (e.2 st sp))
    ∧ (∀ (σ AS α : Type) (tag : AS → ℕ) (table : List (ℕ × (σ → AS → α → ℚ)))
        (states : List σ) (action_spaces : List AS) (actions : List α),
        action_spaces.length = states.length →
        actions.length = states.length →
        states ≠ [] →
        (table.map Prod.fst).Nodup →
        (∀ sp ∈ action_spaces, ∃ e ∈ table, e.1 = tag sp) →
        ∃ out, compute_action_log_probs tag table states action_spaces actions
            = some out ∧
          out.length = states.length ∧
          ∀ i st sp a, states.get? i = some st →
            action_spaces.get? i = some sp → actions.get? i = some a →
            ∃ e ∈ table, e.1 = tag sp ∧ out.get? i = some (e.2 st sp a)) :=
  ⟨fun _ _ _ tag table states as hl hnd hcov =>
      sample_actions_registered tag table states as hl hnd hcov,
    fun _ _ _ tag table states as acts hl ha hne hnd hcov =>
      compute_action_log_probs_registered tag table states as acts hl ha hne
        hnd hcov⟩

/-- C2 counterexample: on the empty batch — vacuously all-registered —
`compute_action_log_probs` fails (`torch.cat` of an empty tensor list) instead
of returning zero outputs. -/
theorem compute_action_log_probs_fails_on_empty_batch :
    compute_action_log_probs (fun t : ℕ => t) [(0, fun _ _ _ => (0 : ℚ))]
      ([] : List ℕ) ([] : List ℕ) ([] : List ℕ) = none := rfl

/-- Witness for C2 at a concrete batch: two states, both with registered
tag `0`. -/
theorem few_phase_dispatch_one_output_per_state_witness :
    ∃ out, sample_actions (fun t : ℕ => t) [(0, fun s sp : ℕ => s + sp)]
        [10, 20] [0, 0] = some out ∧
      out.length = ([10, 20] : List ℕ).length ∧
      ∀ i st sp, ([10, 20] : List ℕ).get? i = some st →
        ([0, 0] : List ℕ).get? i = some sp →
        ∃ e ∈ [((0 : ℕ), fun s sp : ℕ => s + sp)], e.1 = sp ∧
          out.get? i = some (e.2 st sp) :=
  few_phase_dispatch_one_output_per_state.1 ℕ ℕ ℕ (fun t => t)
    [(0, fun s sp => s + sp)] [10, 20] [0, 0] (by decide) (by decide)
    (fun sp hsp => ⟨(0, fun s sp => s + sp), List.mem_singleton_self _, by
      simp only [List.mem_cons, List.not_mem_nil, or_false] at hsp
      rcases hsp with rfl | rfl <;> rfl⟩)

/-- C3 (amended): a state whose action-space runtime type has no registered
scoring function does not make the call fail fast.  The call fails only when
no state in the whole batch has a registered type (`sample_actions` on a
non-empty batch hits `IndexError` at `actions[0]`; `compute_action_log_probs`
hits `torch.cat` on an empty list); when `sample_actions` succeeds, each
unregistered state silently receives the action at flat position `0` —
an output computed for another phase's state. -/
theorem unregistered_action_space_is_not_fail_fast :
    (∀ (σ AS α : Type) (tag : AS → ℕ) (table : List (ℕ × (σ → AS → α)))
        (states : List σ) (action_spaces : List AS),
        states ≠ [] →
        (∀ sp ∈ action_spaces, ∀ e ∈ table, e.1 ≠ tag sp) →
        sample_actions tag table states action_spaces = none)
    ∧ (∀ (σ AS α : Type) (tag : AS → ℕ)
        (table : List (ℕ × (σ → AS → α → ℚ))) (states : List σ)
        (action_spaces : List AS) (actions : List α),
        (∀ sp ∈ action_spaces, ∀ e ∈ table, e.1 ≠ tag sp) →
        compute_action_log_probs tag table states action_spaces actions = none)
    ∧ (∀ (σ AS α : Type) (tag : AS → ℕ) (table : List (ℕ × (σ → AS → α)))
        (states : List σ) (action_spaces : List AS) (out : List α),
        action_spaces.length = states.length →
        sample_actions tag table states action_spaces = some out →
        ∀ i, i < states.length → ∀ sp, action_spaces.get? i = some sp →
          (∀ e ∈ table, e.1 ≠ tag sp) →
          out.get? i = (((table.map fun e =>
              ((e.1 : ℕ), fun p : σ × AS => e.2 p.1 p.2)).map
            (blockOf (fun p : σ × AS => tag p.2)
              (states.zip action_spaces))).flatten).get? 0) :=
  ⟨fun _ _ _ tag table states as hne h =>
      sample_actions_no_match tag table states as hne h,
    fun _ _ _ tag table states as acts h =>
      compute_action_log_probs_no_match tag table states as acts h,
    fun _ _ _ tag table states as out hl hout i hi sp hsp hu =>
      sample_actions_unmatched_gets_first tag table states as out hl hout i hi
        sp hsp hu⟩

/-- C3 counterexample: batch of two states with tags `[0, 1]` while only tag
`0` is registered — the claim demands an error, but the call succeeds and the
unregistered state receives the action computed for the other state
(`10 = 10 + 0`, duplicated). -/
theorem sample_actions_unregistered_is_silent :
    sample_actions (fun t : ℕ => t) [(0, fun s sp : ℕ => s + sp)] [10, 20]
      [0, 1] = some [10, 10] := by
  rfl

/-- Witness for C3 (amended) at a concrete input: a batch whose single state
has no registered type makes `sample_actions` fail. -/
theorem unregistered_action_space_is_not_fail_fast_witness :
    sample_actions (fun t : ℕ => t) [(1, fun s sp : ℕ => s + sp)] [10] [0] =
      none :=
  unregistered_action_space_is_not_fail_fast.1 ℕ ℕ ℕ (fun t => t)
    [(1, fun s sp => s + sp)] [10] [0] (by decide)
    (by
      intro sp hsp e he
      simp only [List.mem_singleton] at hsp he
      subst hsp
      subst he
      decide)

/-- C8: an empty phase partition (a registered type with no representative in
the batch) is skipped without error and contributes no empty block to the
concatenated per-phase results; removing the unrepresented entry from the
dispatch table leaves both `sample_actions` and `compute_action_log_probs`
unchanged, so the remaining states' outputs are unaffected. -/
theorem empty_phase_partition_skipped :
    (∀ (τ ρ : Type) (tagOf : τ → ℕ) (table : List (ℕ × (τ → ρ)))
        (xs : List τ), [] ∉ (dispatch tagOf table xs).1)
    ∧ (∀ (σ AS α : Type) (tag : AS → ℕ) (t₁ t₂ : List (ℕ × (σ → AS → α)))
        (e₀ : ℕ × (σ → AS → α)) (states : List σ) (action_spaces : List AS),
        (∀ sp ∈ action_spaces, tag sp ≠ e₀.1) →
        sample_actions tag (t₁ ++ e₀ :: t₂) states action_spaces =
          sample_actions tag (t₁ ++ t₂) states action_spaces)
    ∧ (∀ (σ AS α : Type) (tag : AS → ℕ)
        (t₁ t₂ : List (ℕ × (σ → AS → α → ℚ))) (e₀ : ℕ × (σ → AS → α → ℚ))
        (states : List σ) (action_spaces : List AS) (actions : List α),
        (∀ sp ∈ action_spaces, tag sp ≠ e₀.1) →
        compute_action_log_probs tag (t₁ ++ e₀ :: t₂) states action_spaces
            actions =
          compute_action_log_probs tag (t₁ ++ t₂) states action_spaces
            actions) :=
  ⟨fun _ _ tagOf table xs => dispatch_no_empty_block tagOf table xs,
    fun _ _ _ tag t₁ t₂ e₀ states as h =>
      sample_actions_skips_unrepresented tag t₁ t₂ e₀ states as h,
    fun _ _ _ tag t₁ t₂ e₀ states as acts h =>
      compute_action_log_probs_skips_unrepresented tag t₁ t₂ e₀ states as
        acts h⟩

/-- Witness for C8 at a concrete input: adding an unrepresented tag-`1` entry
to the table does not change `sample_actions` on an all-tag-`0` batch. -/
theorem empty_phase_partition_skipped_witness :
    sample_actions (fun t : ℕ => t)
        ([((0 : ℕ), fun s sp : ℕ => s + sp)] ++
          ((1 : ℕ), fun s sp : ℕ => s * sp) :: [])
        [10, 20] [0, 0] =
      sample_actions (fun t : ℕ => t)
        ([((0 : ℕ), fun s sp : ℕ => s + sp)] ++ []) [10, 20] [0, 0] :=
  empty_phase_partition_skipped.2.1 ℕ ℕ ℕ (fun t => t)
    [(0, fun s sp => s + sp)] [] (1, fun s sp => s * sp) [10, 20] [0, 0]
    (by
      intro sp hsp
      simp only [List.mem_cons, List.not_mem_nil, or_false] at hsp
      rcases hsp with rfl | rfl <;> decide)

/-! ### `rgfn/api/sampler_base.py`: `sample_trajectories_from_sources`

The `Trajectories` container (`rgfn/api/trajectories.py`) is not under `src/`;
it is modelled from the spec below.  The environment and policy contracts
(§4.1, §6) are batched pure functions, embedded pointwise; `Policy.sample_actions`
is a fixed sampling realization, hence a deterministic function here.  The
`while True` loop carries explicit fuel, making the assumed environment-side
termination visible as an `Option`. -/

/-- Modelled from the spec: one trajectory of the `Trajectories` container
(§3): a non-empty ordered state sequence `s0..sN` (kept as first state plus
the appended rest), matched forward/backward action-space and action
sequences. -/
structure Traj (σ AS α : Type) where
  first_state : σ
  rest_states : List σ
  forward_action_spaces : List AS
  backward_action_spaces : List AS
  actions : List α
deriving DecidableEq

/-- The trajectory's current frontier (last) state. -/
def Traj.last {σ AS α : Type} (t : Traj σ AS α) : σ :=
  t.rest_states.getLastD t.first_state

/-- Append one step's data to a trajectory. -/
def Traj.append1 {σ AS α : Type} (t : Traj σ AS α) (f w : AS) (a : α)
    (s : σ) : Traj σ AS α :=
  { t with
    rest_states := t.rest_states ++ [s]
    forward_action_spaces := t.forward_action_spaces ++ [f]
    backward_action_spaces := t.backward_action_spaces ++ [w]
    actions := t.actions ++ [a] }

/-- Modelled from the spec: trajectory reversal (§3, §4.3): swap
forward/backward action-space roles and reverse state/action order. -/
def Traj.reversedT {σ AS α : Type} (t : Traj σ AS α) : Traj σ AS α :=
  { first_state := t.last
    rest_states := (t.first_state :: t.rest_states).reverse.tail
    forward_action_spaces := t.backward_action_spaces.reverse
    backward_action_spaces := t.forward_action_spaces.reverse
    actions := t.actions.reverse }

/-- Modelled from the spec: the `Trajectories` container (§3): an ordered
collection of trajectories plus an optional per-trajectory reward output
(log-rewards embedded as ℚ). -/
structure Trajectories (σ AS α : Type) where
  trajs : List (Traj σ AS α)
  reward_outputs : Option (List ℚ)
deriving DecidableEq

/-- Modelled from the spec: `add_source_states` — one fresh single-state
trajectory per source. -/
def add_source_states {σ AS α : Type} (sources : List σ) :
    Trajectories σ AS α :=
  ⟨sources.map fun s => ⟨s, [], [], [], []⟩, none⟩

/-- Modelled from the spec: `get_last_states_flat` — the frontier state of
every trajectory, in order. -/
def get_last_states_flat {σ AS α : Type} (c : Trajectories σ AS α) : List σ :=
  c.trajs.map Traj.last

/-- Modelled from the spec: the per-trajectory distribution step of
`add_actions_states` — walk the trajectories with the
`not_terminated_mask`; each active (true-mask) trajectory consumes the next
entry of each data list, inactive trajectories are left unchanged. -/
def distribute {σ AS α : Type} : List (Traj σ AS α) → List Bool → List AS →
    List AS → List α → List σ → List (Traj σ AS α)
  | [], _, _, _, _, _ => []
  | ts, [], _, _, _, _ => ts
  | t :: ts, b :: bs, fs, ws, as_, ss =>
    if b then
      match fs, ws, as_, ss with
      | f :: fs, w :: ws, a :: as_, s :: ss =>
        t.append1 f w a s :: distribute ts bs fs ws as_ ss
      | _, _, _, _ => t :: distribute ts bs [] [] [] []
    else t :: distribute ts bs fs ws as_ ss

/-- Modelled from the spec: `add_actions_states` (§3, §4.3 step (d)): append
action/state/action-space data only to the still-active trajectories. -/
def add_actions_states {σ AS α : Type} (c : Trajectories σ AS α)
    (forward_action_spaces backward_action_spaces : List AS)
    (actions : List α) (states : List σ) (not_terminated_mask : List Bool) :
    Trajectories σ AS α :=
  { c with
    trajs := distribute c.trajs not_terminated_mask forward_action_spaces
      backward_action_spaces actions states }

/-- Modelled from the spec: `Trajectories.reversed`. -/
def Trajectories.reversedC {σ AS α : Type} (c : Trajectories σ AS α) :
    Trajectories σ AS α :=
  { c with trajs := c.trajs.map Traj.reversedT }

/-- Modelled from the spec: `set_reward_outputs`. -/
def set_reward_outputs {σ AS α : Type} (c : Trajectories σ AS α)
    (r : List ℚ) : Trajectories σ AS α :=
  { c with reward_outputs := some r }

/-- The environment contract the sampler consumes (§4.1), batched calls
embedded pointwise. -/
structure EnvModel (σ AS α : Type) where
  terminal : σ → Bool
  forward_action_space : σ → AS
  backward_action_space : σ → AS
  apply_forward : σ → α → σ
  is_reversed : Bool

/-- One iteration of the rollout loop body (`sampler_base.py` lines 98-116):
compute the terminal mask over the frontier, select the non-terminal frontier
states, compute their forward action spaces, sample actions, apply them,
compute backward action spaces of the new states, and append to the
still-active trajectories. -/
def stepRollout {σ AS α : Type} (env : EnvModel σ AS α) (policy : σ → AS → α)
    (c : Trajectories σ AS α) : Trajectories σ AS α :=
  let current_states := get_last_states_flat c
  let terminal_mask := current_states.map env.terminal
  let non_terminal_mask := terminal_mask.map fun t => !t
  let non_terminal_states :=
    ((current_states.zip non_terminal_mask).filter fun p => p.2).map Prod.fst
  let forward_action_spaces := non_terminal_states.map env.forward_action_space
  let new_actions := (non_terminal_states.zip forward_action_spaces).map
    fun p => policy p.1 p.2
  let new_states := (non_terminal_states.zip new_actions).map
    fun p => env.apply_forward p.1 p.2
  let backward_action_spaces := new_states.map env.backward_action_space
  add_actions_states c forward_action_spaces backward_action_spaces
    new_actions new_states non_terminal_mask

/-- The `while True` loop (lines 97-116) with explicit fuel: stop as soon as
every frontier state is terminal, otherwise run one step and continue. -/
def rollout {σ AS α : Type} (env : EnvModel σ AS α) (policy : σ → AS → α) :
    ℕ → Trajectories σ AS α → Option (Trajectories σ AS α)
  | 0, _ => none
  | fuel + 1, c =>
    if ((get_last_states_flat c).map env.terminal).all (fun b => b) then some c
    else rollout env policy fuel (stepRollout env policy c)

/-- Embedding of `SamplerBase.sample_trajectories_from_sources`
(lines 81-122): build single-state trajectories from the sources, run the
rollout loop, then reverse if `env.is_reversed`, then attach the reward output
computed on the (post-reversal) last states when a reward is configured. -/
def sample_trajectories_from_sources {σ AS α : Type} (env : EnvModel σ AS α)
    (policy : σ → AS → α) (reward : Option (List σ → List ℚ)) (fuel : ℕ)
    (source_states : List σ) : Option (Trajectories σ AS α) :=
  (rollout env policy fuel (add_source_states source_states)).map fun c =>
    let c' := if env.is_reversed then c.reversedC else c
    match reward with
    | some r => set_reward_outputs c' (r (get_last_states_flat c'))
    | none => c'

lemma distribute_get_false {σ AS α : Type} :
    ∀ (trajs : List (Traj σ AS α)) (mask : List Bool) (fs ws : List AS)
      (as_ : List α) (ss : List σ) (i : ℕ) (t : Traj σ AS α),
      trajs.get? i = some t → mask.get? i = some false →
      (distribute trajs mask fs ws as_ ss).get? i = some t := by
  intro trajs
  induction trajs with
  | nil => intro mask fs ws as_ ss i t ht hm; simp at ht
  | cons t₀ ts ih =>
    intro mask fs ws as_ ss i t ht hm
    cases mask with
    | nil => simp at hm
    | cons b bs =>
      cases i with
      | zero =>
        simp only [List.get?_cons_zero, Option.some.injEq] at ht hm
        unfold distribute
        rw [if_neg (by simp [hm])]
        simp [ht]
      | succ i =>
        simp only [List.get?_cons_succ] at ht hm
        unfold distribute
        by_cases hb : b
        · rw [if_pos hb]
          split
          · simp only [List.get?_cons_succ]
            exact ih _ _ _ _ _ i t ht hm
          · simp only [List.get?_cons_succ]
            exact ih _ _ _ _ _ i t ht hm
        · rw [if_neg hb]
          simp only [List.get?_cons_succ]
          exact ih _ _ _ _ _ i t ht hm

/-- A trajectory whose frontier state is terminal is left untouched by one
rollout step: new data is appended only to still-active trajectories. -/
lemma stepRollout_preserves_terminal {σ AS α : Type} (env : EnvModel σ AS α)
    (policy : σ → AS → α) (c : Trajectories σ AS α) (i : ℕ)
    (t : Traj σ AS α) (ht : c.trajs.get? i = some t)
    (hterm : env.terminal t.last = true) :
    (stepRollout env policy c).trajs.get? i = some t := by
  unfold stepRollout add_actions_states
  dsimp only
  apply distribute_get_false _ _ _ _ _ _ i t ht
  unfold get_last_states_flat
  rw [List.get?_map, List.get?_map, List.get?_map, ht]
  simp [hterm]

lemma rollout_all_terminal {σ AS α : Type} (env : EnvModel σ AS α)
    (policy : σ → AS → α) :
    ∀ (fuel : ℕ) (c c' : Trajectories σ AS α),
      rollout env policy fuel c = some c' →
      ((get_last_states_flat c').map env.terminal).all (fun b => b) := by
  intro fuel
  induction fuel with
  | zero => intro c c' h; cases h
  | succ n ih =>
    intro c c' h
    rw [rollout] at h
    by_cases hall : ((get_last_states_flat c).map env.terminal).all fun b => b
    · rw [if_pos hall] at h
      cases h
      exact hall
    · rw [if_neg hall] at h
      exact ih _ _ h

lemma rollout_freeze {σ AS α : Type} (env : EnvModel σ AS α)
    (policy : σ → AS → α) :
    ∀ (fuel : ℕ) (c c' : Trajectories σ AS α),
      rollout env policy fuel c = some c' →
      ∀ i t, c.trajs.get? i = some t → env.terminal t.last = true →
        c'.trajs.get? i = some t := by
  intro fuel
  induction fuel with
  | zero => intro c c' h; cases h
  | succ n ih =>
    intro c c' h i t ht hterm
    rw [rollout] at h
    by_cases hall : ((get_last_states_flat c).map env.terminal).all fun b => b
    · rw [if_pos hall] at h
      cases h
      exact ht
    · rw [if_neg hall] at h
      exact ih _ _ h i t
        (stepRollout_preserves_terminal env policy c i t ht hterm) hterm

/-- C4: the sampler's rollout loop stops exactly when every trajectory's
frontier state is terminal; each iteration computes forward action spaces,
samples actions, applies them and computes backward action spaces only for
the non-terminal frontier states, appending only to still-active
trajectories (terminal trajectories are frozen); after the loop, if
`is_reversed` the trajectories are reversed first, and only then, when a
reward is configured, the reward output is computed on the post-reversal last
states and attached. -/
theorem sample_trajectories_stops_reverses_then_rewards :
    (∀ (σ AS α : Type) (env : EnvModel σ AS α) (policy : σ → AS → α)
        (reward : Option (List σ → List ℚ)) (fuel : ℕ) (sources : List σ)
        (tr : Trajectories σ AS α),
        sample_trajectories_from_sources env policy reward fuel sources
            = some tr →
        ∃ c, rollout env policy fuel (add_source_states sources) = some c ∧
          (((get_last_states_flat c).map env.terminal).all fun b => b) ∧
          tr = (match reward with
                | some r => set_reward_outputs
                    (if env.is_reversed then c.reversedC else c)
                    (r (get_last_states_flat
                      (if env.is_reversed then c.reversedC else c)))
                | none => if env.is_reversed then c.reversedC else c))
    ∧ (∀ (σ AS α : Type) (env : EnvModel σ AS α) (policy : σ → AS → α)
        (fuel : ℕ) (c : Trajectories σ AS α),
        ¬(((get_last_states_flat c).map env.terminal).all fun b => b) = true →
        rollout env policy (fuel + 1) c =
          rollout env policy fuel (stepRollout env policy c))
    ∧ (∀ (σ AS α : Type) (env : EnvModel σ AS α) (policy : σ → AS → α)
        (fuel : ℕ) (c c' : Trajectories σ AS α),
        rollout env policy fuel c = some c' →
        ∀ i t, c.trajs.get? i = some t → env.terminal t.last = true →
          c'.trajs.get? i = some t) := by
  refine ⟨?_, ?_, ?_⟩
  · intro σ AS α env policy reward fuel sources tr h
    unfold sample_trajectories_from_sources at h
    obtain ⟨c, hc, htr⟩ := Option.map_eq_some'.mp h
    refine ⟨c, hc, rollout_all_terminal env policy fuel _ c hc, ?_⟩
    rw [← htr]
    cases reward <;> rfl
  · intro σ AS α env policy fuel c hnt
    rw [rollout, if_neg hnt]
  · intro σ AS α env policy fuel c c' h i t ht hterm
    exact rollout_freeze env policy fuel c c' h i t ht hterm

/-- Witness for C4 at a concrete instance: states are naturals, terminal at
`2`, each action increments; sources `[0, 2]`, fuel `5`, reversal on. -/
theorem sample_trajectories_stops_reverses_then_rewards_witness :
    ∃ c, rollout
        (⟨fun s => decide (2 ≤ s), fun s => s, fun _ => 0, fun s _ => s + 1,
          true⟩ : EnvModel ℕ ℕ ℕ)
        (fun _ a => a) 5 (add_source_states [0, 2]) = some c ∧
      (((get_last_states_flat c).map fun s : ℕ => decide (2 ≤ s)).all
        fun b => b) := by
  obtain ⟨tr, htr⟩ : ∃ tr, sample_trajectories_from_sources
      (⟨fun s => decide (2 ≤ s), fun s => s, fun _ => 0, fun s _ => s + 1,
        true⟩ : EnvModel ℕ ℕ ℕ)
      (fun _ a => a) (some fun l => l.map fun s => (s : ℚ)) 5 [0, 2]
      = some tr := ⟨_, rfl⟩
  obtain ⟨c, hc, hall, _⟩ :=
    sample_trajectories_stops_reverses_then_rewards.1 ℕ ℕ ℕ _ _ _ 5 [0, 2]
      tr htr
  exact ⟨c, hc, hall⟩

end RGFN
